import Mathlib

/-!
Verification development for the pulse-sequence compiler core of the
SpanishAcquisitionIQC repository: the dimensioned-quantity (units)
subsystem and the multi-stage tree analyzer with its waveform assembler.

The Python implementation files (spacq/interface/units.py and
spacq/interface/pulse/tree.py) are not part of the provided sources; only
their test suites are (spacq/interface/tests/test_units.py and
spacq/interface/pulse/tests/test_tree.py).  The definitions below are
therefore modelled from the specification, with behaviour pinned by those
test suites wherever the specification text and the tests disagree.
Python strings are embedded as lists of characters, float64 values as
rationals (exact arithmetic; the only lossy step of the real code is
decimal formatting of the mantissa, which the embedding abstracts as an
exact rational), and exceptions as `Except` results.
-/

/-- Modelled from the spec: Python strings are embedded as their character lists. -/
abbrev Str := List Char

/-- Decidable equality of fallible results, for concrete evaluation. -/
instance {ε α : Type} [DecidableEq ε] [DecidableEq α] : DecidableEq (Except ε α) := fun x y =>
  match x, y with
  | .error e1, .error e2 =>
      if h : e1 = e2 then .isTrue (by rw [h]) else .isFalse (by intro hh; cases hh; exact h rfl)
  | .error _, .ok _ => .isFalse (by intro hh; cases hh)
  | .ok _, .error _ => .isFalse (by intro hh; cases hh)
  | .ok a1, .ok a2 =>
      if h : a1 = a2 then .isTrue (by rw [h]) else .isFalse (by intro hh; cases hh; exact h rfl)

/-- Modelled from the spec: the dimension enumeration of the units subsystem
(spacq/interface/units.py, missing from the sources), one canonical unit per
dimension. -/
inductive Dimension where
  | time
  | frequency
  | voltage
  | current
deriving DecidableEq

/-- Modelled from the spec: the SI-prefix table, yocto (10^-24) through yotta
(10^24) in the standard steps.  The deca prefix is included because the test
suite renders the quantity 10 A as the string 1 daA. -/
inductive SIPfx where
  | y
  | z
  | a
  | f
  | p
  | n
  | u
  | m
  | c
  | d
  | da
  | h
  | k
  | M
  | G
  | T
  | P
  | E
  | Z
  | Y
deriving DecidableEq

/-- Modelled from the spec: the decimal exponent of each SI prefix. -/
def SIPfx.exp10 : SIPfx → ℤ
  | .y => -24
  | .z => -21
  | .a => -18
  | .f => -15
  | .p => -12
  | .n => -9
  | .u => -6
  | .m => -3
  | .c => -2
  | .d => -1
  | .da => 1
  | .h => 2
  | .k => 3
  | .M => 6
  | .G => 9
  | .T => 12
  | .P => 15
  | .E => 18
  | .Z => 21
  | .Y => 24

/-- Modelled from the spec: the symbol of each SI prefix, as a character list. -/
def SIPfx.sym : SIPfx → Str
  | .y => [ 'y' ]
  | .z => [ 'z' ]
  | .a => [ 'a' ]
  | .f => [ 'f' ]
  | .p => [ 'p' ]
  | .n => [ 'n' ]
  | .u => [ 'u' ]
  | .m => [ 'm' ]
  | .c => [ 'c' ]
  | .d => [ 'd' ]
  | .da => [ 'd', 'a' ]
  | .h => [ 'h' ]
  | .k => [ 'k' ]
  | .M => [ 'M' ]
  | .G => [ 'G' ]
  | .T => [ 'T' ]
  | .P => [ 'P' ]
  | .E => [ 'E' ]
  | .Z => [ 'Z' ]
  | .Y => [ 'Y' ]

/-- Modelled from the spec: the full prefix table in one list. -/
def pfxList : List SIPfx :=
  [ .y, .z, .a, .f, .p, .n, .u, .m, .c, .d, .da, .h, .k, .M, .G, .T, .P, .E, .Z, .Y ]

/-- Modelled from the spec: a Quantity stores its value in the base SI unit
(embedded as an exact rational), its dimension, and the optional prefix the
value was parsed with (display metadata only; the Python attribute is named
original_prefix). -/
structure Quantity where
  value : ℚ
  dimension : Dimension
  origPfx : Option SIPfx
deriving DecidableEq

/-- Powers of ten with integer exponent, written to compute by cases on the
sign of the exponent. -/
def pow10 : ℤ → ℚ
  | .ofNat n => (10 : ℚ) ^ n
  | .negSucc n => ((10 : ℚ) ^ (n + 1))⁻¹

/-- Exponent of an optional prefix: no prefix means exponent zero. -/
def optExp : Option SIPfx → ℤ
  | none => 0
  | some px => px.exp10

/-- Modelled from the spec: the bijection between dimensions and canonical
unit symbols (seconds, hertz, volts, amperes). -/
def unitOf : Dimension → Str
  | .time => [ 's' ]
  | .frequency => [ 'H', 'z' ]
  | .voltage => [ 'V' ]
  | .current => [ 'A' ]

/-- Modelled from the spec: the unit table keyed by unit symbol. -/
def unitList : List (Str × Dimension) :=
  [ ([ 's' ], .time), ([ 'H', 'z' ], .frequency), ([ 'V' ], .voltage), ([ 'A' ], .current) ]

/-- Association-list lookup by decidable equality on the key. -/
def alookup {α β : Type} [DecidableEq α] (l : List (α × β)) (key : α) : Option β :=
  (l.find? (fun pr => decide (pr.1 = key))).map (·.2)

/-- The decimal exponents available for display, in descending order: every
prefix exponent of the table plus zero for no prefix. -/
def expTable : List ℤ :=
  [24, 21, 18, 15, 12, 9, 6, 3, 2, 1, 0, -1, -2, -3, -6, -9, -12, -15, -18, -21, -24]

/-- The first exponent e of the list whose threshold 10^(e-1) lies strictly
below the given absolute value; yocto's exponent when the value is below
every threshold. -/
def chooseExp : List ℤ → ℚ → ℤ
  | [], _ => -24
  | e :: rest, av => if pow10 (e - 1) < av then e else chooseExp rest av

/-- The prefix of the table carrying a given exponent, if any (the exponent
zero has none: it means no prefix). -/
def pfxOfExp (e : ℤ) : Option SIPfx :=
  pfxList.find? (fun px => decide (px.exp10 = e))

/-- Modelled from the spec: the prefix chosen by to_string for a nonzero
absolute value when no original prefix is kept.  The spec's phrase mantissa
in the interval from 1 to 1000 does not match the test suite (which renders
0.5 Hz with no prefix, 10 A as 1 daA, and -123456789 Hz as -0.123456789 GHz);
the rule pinned by all test vectors is: the largest display exponent e with
10^(e-1) strictly below the absolute value, clamped to yocto when the value
is below every threshold.  An exponent of zero means no prefix. -/
def selectPfx (av : ℚ) : Option SIPfx :=
  pfxOfExp (chooseExp expTable av)

/-- Modelled from the spec: the structured form of a rendered quantity
string: the numeric mantissa (the digits before the unit, exact here where
the real code prints a float), the prefix symbol if any, and the unit
symbol.  The real to_string emits mantissa, one space, prefix and unit. -/
structure Rendered where
  mantissa : ℚ
  pfx : Option SIPfx
  unitSym : Str
deriving DecidableEq

/-- Modelled from the spec: to_string of a Quantity, at the structured level.
A stored value of exactly zero renders with no prefix; a kept original
prefix is used as is (in the rational embedding it always yields a finite
mantissa); otherwise the prefix is chosen by selectPfx. -/
def toRendered (q : Quantity) : Rendered :=
  if q.value = 0 then ⟨0, none, unitOf q.dimension⟩
  else
    match q.origPfx with
    | some px => ⟨q.value / pow10 px.exp10, some px, unitOf q.dimension⟩
    | none =>
        let px := selectPfx |q.value|
        ⟨q.value / pow10 (optExp px), px, unitOf q.dimension⟩

/-- Parse errors of the units subsystem (Python raises ValueError). -/
inductive PErr where
  | badNumber
  | noUnit
  | unknownUnit
deriving DecidableEq

/-- Modelled from the spec: re-parsing a rendered quantity (the structured
counterpart of from_string applied to the output of to_string).  The
reparsed quantity records the rendered prefix as its original prefix. -/
def parseRendered (r : Rendered) : Except PErr Quantity :=
  match alookup unitList r.unitSym with
  | none => .error .unknownUnit
  | some d => .ok ⟨r.mantissa * pow10 (optExp r.pfx), d, r.pfx⟩

/-- Whitespace characters recognised by the parser (the Python \s class). -/
def isWsChar (ch : Char) : Bool :=
  ch = ' ' || ch = '\t' || ch = '\n' || ch = '\r' || ch = '\x0b' || ch = '\x0c'

/-- Drop leading whitespace. -/
def stripL (l : Str) : Str := l.dropWhile isWsChar

/-- Drop trailing whitespace. -/
def stripR (l : Str) : Str := (l.reverse.dropWhile isWsChar).reverse

/-- Strip whitespace from both ends. -/
def stripChars (l : Str) : Str := stripR (stripL l)

/-- Split an optional leading sign: returns (negative, consumed, rest). -/
def signSplit : Str → Bool × Str × Str
  | [] => (false, [], [])
  | ch :: r =>
      if ch = '-' then (true, [ '-' ], r)
      else if ch = '+' then (false, [ '+' ], r)
      else (false, [], ch :: r)

/-- Numeric value of a digit run. -/
def digitsVal (l : Str) : ℕ :=
  l.foldl (fun acc ch => 10 * acc + (ch.toNat - 48)) 0

/-- Parse the optional fractional part: value, consumed characters, rest. -/
def parseFrac : Str → Option (ℚ × Str × Str)
  | [] => some (0, [], [])
  | ch :: r =>
      if ch = '.' then
        let ds := r.takeWhile Char.isDigit
        if ds.isEmpty then none
        else some ((digitsVal ds : ℚ) / (10 : ℚ) ^ ds.length, '.' :: ds, r.dropWhile Char.isDigit)
      else some (0, [], ch :: r)

/-- Parse the digits of an exponent part after its marker character. -/
def expTail (ch : Char) (r : Str) : Option (ℤ × Str × Str) :=
  let sp := signSplit r
  let ds := sp.2.2.takeWhile Char.isDigit
  if ds.isEmpty then none
  else
    some ((if sp.1 then -(digitsVal ds : ℤ) else (digitsVal ds : ℤ)),
      ch :: (sp.2.1 ++ ds), sp.2.2.dropWhile Char.isDigit)

/-- Parse the optional scientific exponent part: exponent, consumed, rest. -/
def parseExpPart : Str → Option (ℤ × Str × Str)
  | [] => some (0, [], [])
  | ch :: r =>
      if ch = 'e' ∨ ch = 'E' then expTail ch r
      else some (0, [], ch :: r)

/-- Modelled from the spec: parse a leading numeric literal of the quantity
text format: optional sign, digits, optional fraction, optional exponent.
Returns the value, the consumed token and the rest of the input. -/
def parseNumber (l : Str) : Option (ℚ × Str × Str) :=
  let sp := signSplit l
  let ds := sp.2.2.takeWhile Char.isDigit
  if ds.isEmpty then none
  else
    match parseFrac (sp.2.2.dropWhile Char.isDigit) with
    | none => none
    | some (fv, fc, l3) =>
        match parseExpPart l3 with
        | none => none
        | some (ev, ec, l4) =>
            some ((if sp.1 then (-1 : ℚ) else 1) * ((digitsVal ds : ℚ) + fv) * pow10 ev,
              sp.2.1 ++ ds ++ fc ++ ec, l4)

/-- Strip one list off the front of another, returning the rest on success. -/
def stripPre : Str → Str → Option Str
  | [], l => some l
  | _ :: _, [] => none
  | ch :: cs, x :: xs => if ch = x then stripPre cs xs else none

/-- Modelled from the spec: resolve a unit word as either a bare unit symbol
or an SI prefix followed by a unit symbol. -/
def resolveUnit (u : Str) : Option (Dimension × Option SIPfx) :=
  match alookup unitList u with
  | some d => some (d, none)
  | none =>
      pfxList.findSome? (fun px =>
        match stripPre px.sym u with
        | some rest => (alookup unitList rest).map (fun d => (d, some px))
        | none => none)

/-- Modelled from the spec: Quantity.from_string on a character list.  The
published text format is a number, optional whitespace and a prefixed unit;
the test suite additionally accepts arbitrary leading and trailing
whitespace, so the input is stripped first (pinned by test_units.py, which
parses a tab-padded quantity string successfully). -/
def fromChars (l : Str) : Except PErr Quantity :=
  match parseNumber (stripChars l) with
  | none => .error .badNumber
  | some (v, _, rest) =>
      if (rest.dropWhile isWsChar).isEmpty then .error .noUnit
      else
        match resolveUnit (rest.dropWhile isWsChar) with
        | none => .error .unknownUnit
        | some (d, px) => .ok ⟨v * pow10 (optExp px), d, px⟩

/-- Recogniser for the digits of an exponent part (marker already split). -/
def expDigitsOk (r : Str) : Bool :=
  let r1 := (signSplit r).2.2
  (!r1.isEmpty) && r1.all Char.isDigit

/-- Recogniser for the optional exponent part, anchored at end of token. -/
def expOkB : Str → Bool
  | [] => true
  | ch :: r => if ch = 'e' ∨ ch = 'E' then expDigitsOk r else false

/-- Recogniser for the optional fraction followed by the exponent part. -/
def fracOkB : Str → Bool
  | [] => expOkB []
  | ch :: r =>
      if ch = '.' then
        let ds := r.takeWhile Char.isDigit
        (!ds.isEmpty) && expOkB (r.dropWhile Char.isDigit)
      else expOkB (ch :: r)

/-- Recogniser for a complete numeric token of the published text format:
optional sign, digits, optional dot-fraction, optional exponent. -/
def numTokenB (l : Str) : Bool :=
  let l1 := (signSplit l).2.2
  let ds := l1.takeWhile Char.isDigit
  (!ds.isEmpty) && fracOkB (l1.dropWhile Char.isDigit)

/-- The published quantity text format of the spec, as a predicate: a numeric
token, then optional whitespace, then a word resolving to a prefixed unit,
with nothing else around them. -/
def matchesTextFormat (l : Str) : Prop :=
  ∃ ntok wsp utok, l = ntok ++ wsp ++ utok ∧ numTokenB ntok = true ∧
    wsp.all isWsChar = true ∧ (resolveUnit utok).isSome = true

/-- The comparison operators of the Quantity class. -/
inductive CmpOp where
  | ceq
  | cne
  | clt
  | cle
  | cgt
  | cge
deriving DecidableEq

/-- Errors of the units subsystem other than parsing. -/
inductive UErr where
  | incompatibleDimensions
deriving DecidableEq

/-- Evaluate a comparison operator on the two stored values. -/
def cmpEval (op : CmpOp) (x y : ℚ) : Bool :=
  match op with
  | .ceq => decide (x = y)
  | .cne => decide (x ≠ y)
  | .clt => decide (x < y)
  | .cle => decide (x ≤ y)
  | .cgt => decide (y < x)
  | .cge => decide (y ≤ x)

/-- Modelled from the spec: every comparison operator on Quantities first
requires equal dimensions and raises IncompatibleDimensions otherwise, never
returning a boolean on mismatch. -/
def compareQ (q1 q2 : Quantity) (op : CmpOp) : Except UErr Bool :=
  if q1.dimension = q2.dimension then .ok (cmpEval op q1.value q2.value)
  else .error .incompatibleDimensions

/-- Modelled from the spec: the assert_dimension check method.  With the
exception flag set it raises on mismatch; with the flag cleared it returns
a boolean and never raises. -/
def assertDimension (q : Quantity) (d : Dimension) (exc : Bool) : Except UErr Bool :=
  if q.dimension = d then .ok true
  else if exc then .error .incompatibleDimensions
  else .ok false

/-- Shape of the consumed sign characters of a numeric token. -/
def SignShape (sc : Str) : Prop :=
  sc = [] ∨ sc = [ '-' ] ∨ sc = [ '+' ]

/-- Shape of the consumed fraction characters of a numeric token. -/
def FracShape (fc : Str) : Prop :=
  fc = [] ∨ ∃ ds, fc = '.' :: ds ∧ ds ≠ [] ∧ ∀ x ∈ ds, Char.isDigit x = true

/-- Shape of the consumed exponent characters of a numeric token. -/
def ExpShape (ec : Str) : Prop :=
  ec = [] ∨ ∃ mk sc ds, ec = mk :: (sc ++ ds) ∧ (mk = 'e' ∨ mk = 'E') ∧ SignShape sc ∧
    ds ≠ [] ∧ ∀ x ∈ ds, Char.isDigit x = true

/-- Whether a fallible result is a success. -/
def exOk {ε α : Type} : Except ε α → Bool
  | .ok _ => true
  | .error _ => false

/-- Modelled from the spec: the declared kind of a name in the Environment's
variables mapping, plus the pre-declared acquisition pseudo-variable kind. -/
inductive VarKind where
  | int
  | delay
  | pulse
  | output
  | acqMarker
deriving DecidableEq

/-- Modelled from the spec: an attribute path, either a bare name or a name
with an attribute. -/
abbrev APath := Str × Option Str

/-- Modelled from the spec: a bound value in the Environment's values
mapping: a Quantity, an integer, or a string. -/
inductive Value where
  | quantity (q : Quantity)
  | intv (n : ℤ)
  | str (s : Str)
deriving DecidableEq

/-- Modelled from the spec: the error kinds of the analyzer stages (the real
code records message strings; the constructors embed the message kinds the
test suite matches by prefix). -/
inductive Err where
  | redecl (nm : Str)
  | nestedDecl (nm : Str)
  | missingValue (p : APath)
  | badValue (p : APath)
  | badQuantity
  | notAnOutput
  | badRepeatCount
  | amplitudeRange
  | unsupportedShape
deriving DecidableEq

/-- Modelled from the spec: a rendered Waveform: one sample array and two
marker bit-streams of equal length. -/
structure Waveform where
  wave : List ℚ
  marker1 : List Bool
  marker2 : List Bool
deriving DecidableEq

/-- Modelled from the spec: the mutable Environment carried through the
stages (the stage field itself is implicit in which traversal function is
invoked; the Python field named variables is embedded as vars, since Lean
reserves that word). -/
structure Env where
  vars : List (Str × VarKind)
  values : List (APath × Value)
  errors : List Err
  waveforms : List (Str × Waveform)
  period : ℚ
deriving DecidableEq

/-- Modelled from the spec: one member of a parenthesized group: a declared
delay name, a declared pulse name, or a bare quantity. -/
inductive Comp where
  | delayC (nm : Str)
  | pulseC (nm : Str)
  | quantC (q : Quantity)
deriving DecidableEq

/-- Modelled from the spec: a parenthesized group: members plus the target
output names. -/
abbrev ParGrp := List Comp × List Str

/-- Modelled from the spec: a repetition count: an integer literal or a
declared int name. -/
inductive RepC where
  | lit (n : ℤ)
  | var (nm : Str)
deriving DecidableEq

mutual
/-- Modelled from the spec: one AST node of the pulse program: declarations,
assignments and the command timeline (bare delay names, bare quantities,
parallel groups, acquire, and repeat blocks whose bodies are sub-programs;
the parser accepts declarations inside blocks, the analyzer rejects them). -/
inductive Node where
  | decl (k : VarKind) (names : List Str)
  | assign (p : APath) (v : Value)
  | delayName (nm : Str)
  | quantN (q : Quantity)
  | par (gs : List ParGrp)
  | acquire
  | times (c : RepC) (body : Nodes)
/-- A program: a sequence of nodes. -/
inductive Nodes where
  | nil
  | cons (hd : Node) (tl : Nodes)
end

/-- Concatenation of programs. -/
def Nodes.app : Nodes → Nodes → Nodes
  | .nil, b => b
  | .cons h t, b => .cons h (Nodes.app t b)

/-- The name of the pre-declared acquisition pseudo-variable. -/
def acqName : Str := [ '_', 'a', 'c', 'q', '_', 'm', 'a', 'r', 'k', 'e', 'r' ]

/-- The shape attribute name. -/
def shapeA : Str := [ 's', 'h', 'a', 'p', 'e' ]

/-- The length attribute name. -/
def lengthA : Str := [ 'l', 'e', 'n', 'g', 't', 'h' ]

/-- The amplitude attribute name. -/
def amplitudeA : Str := [ 'a', 'm', 'p', 'l', 'i', 't', 'u', 'd', 'e' ]

/-- The output attribute name of the acquisition pseudo-variable. -/
def outputA : Str := [ 'o', 'u', 't', 'p', 'u', 't' ]

/-- The num attribute name of the acquisition pseudo-variable. -/
def numA : Str := [ 'n', 'u', 'm' ]

/-- The square shape value. -/
def squareS : Str := [ 's', 'q', 'u', 'a', 'r', 'e' ]

/-- The declared outputs of an Environment, in declaration order. -/
def outputsOf (env : Env) : List Str :=
  (env.vars.filter (fun pr => decide (pr.2 = VarKind.output))).map (·.1)

/-- Modelled from the spec: rasterization of a duration into a sample count
by rounding the ratio to the sample period. -/
def samples (env : Env) (q : Quantity) : ℕ :=
  (round (q.value / env.period)).toNat

/-- Look up a bound Quantity at a path; missing or wrongly-typed bindings
are fatal errors of the waveforms stage. -/
def getQty (env : Env) (p : APath) : Except Err Quantity :=
  match alookup env.values p with
  | some (Value.quantity q) => .ok q
  | some _ => .error (Err.badValue p)
  | none => .error (Err.missingValue p)

/-- Look up a bound Quantity of dimension time. -/
def getTimeQty (env : Env) (p : APath) : Except Err Quantity :=
  match getQty env p with
  | .error e => .error e
  | .ok q => if q.dimension = Dimension.time then .ok q else .error (Err.badValue p)

/-- Look up a bound Quantity of dimension voltage. -/
def getVoltQty (env : Env) (p : APath) : Except Err Quantity :=
  match getQty env p with
  | .error e => .error e
  | .ok q => if q.dimension = Dimension.voltage then .ok q else .error (Err.badValue p)

/-- Look up a bound string value. -/
def getStrVal (env : Env) (p : APath) : Except Err Str :=
  match alookup env.values p with
  | some (Value.str s) => .ok s
  | some _ => .error (Err.badValue p)
  | none => .error (Err.missingValue p)

/-- Look up a bound integer value. -/
def getIntVal (env : Env) (p : APath) : Except Err ℤ :=
  match alookup env.values p with
  | some (Value.intv n) => .ok n
  | some _ => .error (Err.badValue p)
  | none => .error (Err.missingValue p)

/-- The top-level duration binding of a declared delay. -/
def getDelay (env : Env) (nm : Str) : Except Err Quantity :=
  getTimeQty env (nm, none)

/-- Per-output rendering segment: the samples written and the cursors at
which an acquisition marker was started, both relative to the segment. -/
abbrev OutSeg := List ℚ × List ℕ

/-- A rendering segment: one OutSeg per declared output, in order. -/
abbrev Seg := List OutSeg

/-- Sequential composition of per-output segments: samples concatenate and
the second segment's acquisition cursors shift by the first's length. -/
def OutSeg.comp (a b : OutSeg) : OutSeg :=
  (a.1 ++ b.1, a.2 ++ b.2.map (· + a.1.length))

/-- Sequential composition of segments, output by output. -/
def Seg.comp (s t : Seg) : Seg := List.zipWith OutSeg.comp s t

/-- The empty segment of the same output arity as a given segment. -/
def Seg.one (s : Seg) : Seg := s.map (fun _ => ([], []))

/-- Modelled from the spec: a repeat block renders its body once and repeats
the resulting per-output segments. -/
def Seg.npow : ℕ → Seg → Seg
  | 0, s => Seg.one s
  | nn + 1, s => Seg.comp s (Seg.npow nn s)

/-- The segment writing a span of zero-amplitude samples on every output. -/
def zeroSeg (env : Env) (k : ℕ) : Seg :=
  (outputsOf env).map (fun _ => (List.replicate k (0 : ℚ), ([] : List ℕ)))

/-- The segment recording an acquisition start at the current cursor of the
output with the given index, and nothing anywhere else. -/
def acqSeg (env : Env) (j : ℕ) : Seg :=
  (List.range (outputsOf env).length).map
    (fun i => (([] : List ℚ), if i = j then [0] else ([] : List ℕ)))

/-- Resolve the acquisition routing: the bound output's index among the
declared outputs; the num attribute must also be bound.  Missing bindings
are fatal. -/
def acqIndex (env : Env) : Except Err ℕ :=
  match getStrVal env (acqName, some outputA) with
  | .error e => .error e
  | .ok o =>
      match getIntVal env (acqName, some numA) with
      | .error e => .error e
      | .ok _ =>
          match (outputsOf env).findIdx? (fun x => decide (x = o)) with
          | some j => .ok j
          | none => .error Err.notAnOutput

/-- Fallible map over a list, stopping at the first error. -/
def exMapM {α β ε : Type} (f : α → Except ε β) : List α → Except ε (List β)
  | [] => .ok []
  | x :: xs =>
      match f x with
      | .error e => .error e
      | .ok y =>
          match exMapM f xs with
          | .error e => .error e
          | .ok ys => .ok (y :: ys)

/-- Modelled from the spec: the samples contributed by one group member:
delays and bare quantities contribute zero amplitude for their duration, a
square pulse contributes its amplitude (in volts, clamp-checked against the
interval from -1 to 1, failing fatally outside it) for its length.
Non-square shapes read a file and are outside this embedding; they fail. -/
def renderComp (env : Env) : Comp → Except Err (List ℚ)
  | .delayC nm =>
      match getDelay env nm with
      | .error e => .error e
      | .ok q => .ok (List.replicate (samples env q) 0)
  | .quantC q =>
      if q.dimension = Dimension.time then .ok (List.replicate (samples env q) 0)
      else .error Err.badQuantity
  | .pulseC nm =>
      match getStrVal env (nm, some shapeA) with
      | .error e => .error e
      | .ok sh =>
          if sh = squareS then
            match getTimeQty env (nm, some lengthA) with
            | .error e => .error e
            | .ok len =>
                match getVoltQty env (nm, some amplitudeA) with
                | .error e => .error e
                | .ok amp =>
                    if amp.value < -1 ∨ 1 < amp.value then .error Err.amplitudeRange
                    else .ok (List.replicate (samples env len) amp.value)
          else .error Err.unsupportedShape

/-- One group's branch content: its members' samples concatenated. -/
def renderGrp (env : Env) (g : ParGrp) : Except Err (List ℚ) :=
  match exMapM (renderComp env) g.1 with
  | .error e => .error e
  | .ok ws => .ok ws.flatten

/-- Every group target must be a declared output. -/
def checkTargets (env : Env) (gs : List ParGrp) : Except Err Unit :=
  match exMapM
      (fun o => if o ∈ outputsOf env then (.ok () : Except Err Unit) else .error Err.notAnOutput)
      (gs.map (·.2)).flatten with
  | .error e => .error e
  | .ok _ => .ok ()

/-- The width of a parallel statement: its longest branch. -/
def grpWidth (bs : List (List ℚ)) : ℕ := (bs.map List.length).foldr max 0

/-- Zero-pad a branch to the statement width. -/
def padTo (w : ℕ) (b : List ℚ) : List ℚ := b ++ List.replicate (w - b.length) 0

/-- The branch content of the first group targeting a given output. -/
def firstTargeting (gs : List ParGrp) (bs : List (List ℚ)) (o : Str) : Option (List ℚ) :=
  ((gs.zip bs).find? (fun pr => pr.1.2.any (fun x => decide (x = o)))).map (·.2)

/-- Modelled from the spec: a parallel statement of groups: every output
targeted by a group receives that group's branch zero-padded to the longest
branch; every other output is zero-padded for the whole width. -/
def renderPar (env : Env) (gs : List ParGrp) : Except Err Seg :=
  match checkTargets env gs with
  | .error e => .error e
  | .ok _ =>
      match exMapM (renderGrp env) gs with
      | .error e => .error e
      | .ok bs =>
          .ok ((outputsOf env).map (fun o =>
            match firstTargeting gs bs o with
            | some b => (padTo (grpWidth bs) b, ([] : List ℕ))
            | none => (List.replicate (grpWidth bs) (0 : ℚ), ([] : List ℕ))))

/-- Modelled from the spec: resolve a repetition count to a non-negative
integer: a literal, or a declared int with a bound value; anything else is
fatal at rendering time. -/
def repCount (env : Env) : RepC → Except Err ℕ
  | .lit i => if i < 0 then .error Err.badRepeatCount else .ok i.toNat
  | .var nm =>
      match alookup env.values (nm, none) with
      | some (Value.intv i) => if i < 0 then .error Err.badRepeatCount else .ok i.toNat
      | _ => .error Err.badRepeatCount

mutual
/-- Modelled from the spec: the waveforms-stage rendering of one node into a
segment.  Declarations and assignments contribute nothing; a bare delay name
or bare quantity writes zero amplitude on every output for its duration; a
parallel statement renders its groups; acquire records the current cursor of
the routed output on marker channel 1 (pinned by ValidTreeTest.testWaveforms,
where the marker stays true from the acquire cursor to the end of the
waveform and the cursor does not advance, although the spec says a num-sized
marker segment is inserted and the cursor advances); a repeat block renders
its body once and repeats the segment.  Any missing required binding is a
fatal error, never a recorded one. -/
def renderNode (env : Env) : Node → Except Err Seg
  | .decl _ _ => .ok (zeroSeg env 0)
  | .assign _ _ => .ok (zeroSeg env 0)
  | .delayName nm =>
      match getDelay env nm with
      | .error e => .error e
      | .ok q => .ok (zeroSeg env (samples env q))
  | .quantN q =>
      if q.dimension = Dimension.time then .ok (zeroSeg env (samples env q))
      else .error Err.badQuantity
  | .par gs => renderPar env gs
  | .acquire =>
      match acqIndex env with
      | .error e => .error e
      | .ok j => .ok (acqSeg env j)
  | .times c body =>
      match repCount env c with
      | .error e => .error e
      | .ok n =>
          match renderNodes env body with
          | .error e => .error e
          | .ok s => .ok (Seg.npow n s)
/-- Rendering of a program: the segments of its nodes composed in order. -/
def renderNodes (env : Env) : Nodes → Except Err Seg
  | .nil => .ok (zeroSeg env 0)
  | .cons h t =>
      match renderNode env h with
      | .error e => .error e
      | .ok s1 =>
          match renderNodes env t with
          | .error e => .error e
          | .ok s2 => .ok (Seg.comp s1 s2)
end

/-- Materialize an output's segment into its Waveform: marker channel 1 is
true from each recorded acquisition cursor onward, marker channel 2 is
reserved and stays false. -/
def mkWaveform (os : OutSeg) : Waveform :=
  { wave := os.1,
    marker1 := (List.range os.1.length).map (fun i => os.2.any (fun cpos => decide (cpos ≤ i))),
    marker2 := List.replicate os.1.length false }

/-- Modelled from the spec: the waveforms stage: render the whole program
and populate the Environment's waveforms mapping.  The stage raises on the
first fatal error (the Except error carries no Environment) and never
appends to the accumulated errors list. -/
def waveformsStage (env : Env) (prog : Nodes) : Except Err Env :=
  match renderNodes env prog with
  | .error e => .error e
  | .ok s =>
      .ok { env with
        waveforms := List.zipWith (fun o os => (o, mkWaveform os)) (outputsOf env) s }

/-- Modelled from the spec: insert one top-level declared name: a
re-declaration is recorded as one error and rejected (first wins), a fresh
name is appended with its kind. -/
def declareTop (k : VarKind) (e : Env) (nm : Str) : Env :=
  if (alookup e.vars nm).isSome then { e with errors := e.errors ++ [ Err.redecl nm ] }
  else { e with vars := e.vars ++ [ (nm, k) ] }

mutual
/-- Modelled from the spec: the declarations-stage visit of one node at a
block depth: top-level declarations are inserted name by name, declarations
inside a repeat block are each recorded as a Declaration-kind error and not
inserted (pinned by InvalidTreeTest.testDeclarations), repeat blocks are
traversed one level deeper, and all other nodes are ignored. -/
def declNode (d : ℕ) (e : Env) : Node → Env
  | .decl k names =>
      if d = 0 then names.foldl (declareTop k) e
      else { e with errors := e.errors ++ names.map Err.nestedDecl }
  | .times _ body => declNodes (d + 1) e body
  | .assign _ _ => e
  | .delayName _ => e
  | .quantN _ => e
  | .par _ => e
  | .acquire => e
/-- The declarations-stage traversal of a program at a block depth. -/
def declNodes (d : ℕ) (e : Env) : Nodes → Env
  | .nil => e
  | .cons h t => declNodes d (declNode d e h) t
end

/-- The top-level declared name occurrences of one node, with kinds. -/
def topDecls1 : Node → List (Str × VarKind)
  | .decl k names => names.map (fun nm => (nm, k))
  | _ => []

/-- The top-level declared name occurrences of a program, in order. -/
def topDecls : Nodes → List (Str × VarKind)
  | .nil => []
  | .cons h t => topDecls1 h ++ topDecls t

/-- First-wins insertion of one name occurrence. -/
def insOne (vs : List (Str × VarKind)) (pr : Str × VarKind) : List (Str × VarKind) :=
  if (alookup vs pr.1).isSome then vs else vs ++ [ pr ]

/-- First-wins insertion of a list of name occurrences. -/
def insAll (vs : List (Str × VarKind)) (ps : List (Str × VarKind)) : List (Str × VarKind) :=
  ps.foldl insOne vs

/-- The occurrences of the list that re-declare a name already present (in
the initial mapping or declared earlier in the list), in order. -/
def dupsFrom (vs : List (Str × VarKind)) : List (Str × VarKind) → List Str
  | [] => []
  | pr :: t =>
      if (alookup vs pr.1).isSome then pr.1 :: dupsFrom vs t
      else dupsFrom (vs ++ [ pr ]) t

/-- Whether an error is a re-declaration error. -/
def isRedecl : Err → Bool
  | .redecl _ => true
  | _ => false

mutual
/-- All declared names appearing anywhere in a node, at any depth. -/
def declNamesN : Node → List Str
  | .decl _ names => names
  | .times _ body => declNamesNs body
  | _ => []
/-- All declared names appearing anywhere in a program, at any depth. -/
def declNamesNs : Nodes → List Str
  | .nil => []
  | .cons h t => declNamesN h ++ declNamesNs t
end

mutual
/-- Whether a node references a given declared delay name anywhere (as a
bare timeline entry, inside a group, or inside a repeat block). -/
def mentionsDelay (nm : Str) : Node → Bool
  | .delayName m => decide (m = nm)
  | .par gs =>
      gs.any (fun g => g.1.any (fun cc =>
        match cc with
        | .delayC m => decide (m = nm)
        | _ => false))
  | .times _ body => mentionsDelayNs nm body
  | _ => false
/-- Whether a program references a given declared delay name anywhere. -/
def mentionsDelayNs (nm : Str) : Nodes → Bool
  | .nil => false
  | .cons h t => mentionsDelay nm h || mentionsDelayNs nm t
end

mutual
/-- Whether a node contains no acquire command at any depth. -/
def acquireFree : Node → Bool
  | .acquire => false
  | .times _ body => acquireFreeNs body
  | _ => true
/-- Whether a program contains no acquire command at any depth. -/
def acquireFreeNs : Nodes → Bool
  | .nil => true
  | .cons h t => acquireFree h && acquireFreeNs t
end

/-- The wave of one output after repeating a segment: the concatenation of
the copies. -/
def repWave (n : ℕ) (w : List ℚ) : List ℚ := (List.replicate n w).flatten

/-- The acquisition cursors of one output after repeating a segment of the
given length: each copy's cursors shifted by one more length. -/
def repAcq : ℕ → ℕ → List ℕ → List ℕ
  | 0, _, _ => []
  | nn + 1, L, a => a ++ (repAcq nn L a).map (· + L)

/-- A one-output Environment with the acquisition pseudo-variable routed to
that output with num bound to 1 (concrete evaluation vehicle). -/
def outName : Str := [ 'o' ]

/-- A declared delay name for concrete evaluation. -/
def dName : Str := [ 'd', '1' ]

/-- The two-second Quantity used in concrete evaluations (period one second,
hence two samples). -/
def qTwo : Quantity := ⟨2, Dimension.time, none⟩

/-- Concrete Environment: one declared output, acquisition bound to it with
num one. -/
def envC1 : Env :=
  { vars := [ (acqName, VarKind.acqMarker), (outName, VarKind.output) ],
    values := [ ((acqName, some outputA), Value.str outName),
                ((acqName, some numA), Value.intv 1) ],
    errors := [], waveforms := [], period := 1 }

/-- Concrete program: an acquire followed by a bare two-sample quantity. -/
def progC1 : Nodes := .cons .acquire (.cons (.quantN qTwo) .nil)

/-- Concrete Environment with a declared delay that never receives a value
(the shape of InvalidTreeTest.testWaveforms). -/
def envC3 : Env :=
  { vars := [ (acqName, VarKind.acqMarker), (dName, VarKind.delay) ],
    values := [], errors := [], waveforms := [], period := 1 }

/-- Concrete program: the unbound delay as the only timeline entry. -/
def progC3 : Nodes := .cons (.delayName dName) .nil

/-- Concrete repeat-block body: one bare two-sample quantity. -/
def bodyC7 : Nodes := .cons (.quantN qTwo) .nil

/-- The segment rendered by that body. -/
def segC7 : Seg := Seg.comp (zeroSeg envC1 2) (zeroSeg envC1 0)

/-- The segment rendered for the acquire-then-two-samples program. -/
def segCX : Seg := Seg.comp (acqSeg envC1 0) segC7

/-- The Environment produced by the waveforms stage on the
acquire-then-two-samples program. -/
def envCX : Env :=
  { envC1 with
    waveforms := List.zipWith (fun o os => (o, mkWaveform os)) (outputsOf envC1) segCX }


theorem pow10_eq_zpow (e : ℤ) : pow10 e = (10 : ℚ) ^ e := by
  cases e with
  | ofNat n => exact (zpow_natCast (10 : ℚ) n).symm
  | negSucc n => exact (zpow_negSucc (10 : ℚ) n).symm

theorem pow10_pos (e : ℤ) : 0 < pow10 e := by
  rw [pow10_eq_zpow]
  positivity

theorem pow10_ne_zero (e : ℤ) : pow10 e ≠ 0 := ne_of_gt (pow10_pos e)

theorem pow10_mono {e f : ℤ} (h : e ≤ f) : pow10 e ≤ pow10 f := by
  rw [pow10_eq_zpow, pow10_eq_zpow]
  exact zpow_le_zpow_right₀ (by norm_num) h

theorem pow10_add (e f : ℤ) : pow10 (e + f) = pow10 e * pow10 f := by
  rw [pow10_eq_zpow, pow10_eq_zpow, pow10_eq_zpow]
  exact zpow_add₀ (by norm_num) e f

theorem pow10_one : pow10 1 = 10 := by
  rw [pow10_eq_zpow, zpow_one]

theorem pow10_two : pow10 2 = 100 := by
  rw [pow10_eq_zpow]
  norm_num

theorem toRendered_of_zero (q : Quantity) (h : q.value = 0) :
    toRendered q = ⟨0, none, unitOf q.dimension⟩ := by
  unfold toRendered
  rw [if_pos h]

theorem toRendered_of_kept (q : Quantity) (px : SIPfx) (h : ¬ q.value = 0)
    (hp : q.origPfx = some px) :
    toRendered q = ⟨q.value / pow10 px.exp10, some px, unitOf q.dimension⟩ := by
  unfold toRendered
  rw [if_neg h, hp]

theorem toRendered_of_fresh (q : Quantity) (h : ¬ q.value = 0) (hp : q.origPfx = none) :
    toRendered q =
      ⟨q.value / pow10 (optExp (selectPfx |q.value|)), selectPfx |q.value|,
        unitOf q.dimension⟩ := by
  unfold toRendered
  rw [if_neg h, hp]

attribute [irreducible] pow10

theorem chooseExp_lb (l : List ℤ) (av : ℚ) (h1 : pow10 (-25) < av) :
    pow10 (chooseExp l av - 1) < av := by
  induction l with
  | nil =>
      have h : ((-24 : ℤ) - 1) = -25 := by norm_num
      rw [chooseExp, h]
      exact h1
  | cons e rest ih =>
      rw [chooseExp]
      by_cases h : pow10 (e - 1) < av
      · rw [if_pos h]
        exact h
      · rw [if_neg h]
        exact ih

/-- The descending-gap invariant of an exponent list: the running upper
threshold exceeds each entry by at most two, down to the fallback. -/
def chainUB : List ℤ → ℤ → Prop
  | [], b => b ≤ -22
  | e :: rest, b => b ≤ e + 2 ∧ chainUB rest (e - 1)

theorem chooseExp_ub (l : List ℤ) (av : ℚ) : ∀ b : ℤ, av ≤ pow10 b → chainUB l b →
    av ≤ pow10 (chooseExp l av + 2) := by
  induction l with
  | nil =>
      intro b hb hc
      rw [chooseExp]
      have h : ((-24 : ℤ) + 2) = -22 := by norm_num
      rw [h]
      exact le_trans hb (pow10_mono hc)
  | cons e rest ih =>
      intro b hb hc
      rw [chooseExp]
      by_cases h : pow10 (e - 1) < av
      · rw [if_pos h]
        exact le_trans hb (pow10_mono hc.1)
      · rw [if_neg h]
        exact ih (e - 1) (le_of_not_lt h) hc.2

theorem chooseExp_mem (l : List ℤ) (av : ℚ) :
    chooseExp l av = -24 ∨ chooseExp l av ∈ l := by
  induction l with
  | nil => exact Or.inl rfl
  | cons e rest ih =>
      rw [chooseExp]
      by_cases h : pow10 (e - 1) < av
      · rw [if_pos h]
        exact Or.inr (List.mem_cons_self e rest)
      · rw [if_neg h]
        rcases ih with h2 | h2
        · exact Or.inl h2
        · exact Or.inr (List.mem_cons_of_mem e h2)

theorem optExp_pfxOfExp (e : ℤ) (he : e = -24 ∨ e ∈ expTable) :
    optExp (pfxOfExp e) = e := by
  have hlist : e ∈ expTable := by
    rcases he with h | h
    · rw [h]
      decide
    · exact h
  fin_cases hlist <;> decide

theorem optExp_selectPfx (av : ℚ) : optExp (selectPfx av) = chooseExp expTable av := by
  rw [selectPfx]
  refine optExp_pfxOfExp _ ?_
  exact chooseExp_mem expTable av

theorem selectPfx_lb (av : ℚ) (h1 : pow10 (-25) < av) :
    pow10 (optExp (selectPfx av) - 1) < av := by
  rw [optExp_selectPfx]
  exact chooseExp_lb expTable av h1

theorem selectPfx_ub (av : ℚ) (h2 : av ≤ pow10 24) :
    av ≤ pow10 (optExp (selectPfx av) + 2) := by
  rw [optExp_selectPfx]
  refine chooseExp_ub expTable av 24 h2 ?_
  norm_num [chainUB, expTable]

/-- Claim C2 counterexample: the quantity with stored value 0.5 and dimension
frequency (the test vector rendered as the string 0.5 Hz) is nonzero, carries
no original prefix, and is rendered with no prefix and mantissa 0.5, which is
not in the interval [1, 1000) -- even though a prefix achieving a mantissa in
that interval exists (deci would give mantissa 5). -/
theorem C2_cx :
    (toRendered ⟨1/2, Dimension.frequency, none⟩).pfx = none ∧
    (toRendered ⟨1/2, Dimension.frequency, none⟩).mantissa = 1/2 ∧
    ¬ ((1 : ℚ) ≤ (toRendered ⟨1/2, Dimension.frequency, none⟩).mantissa ∧
        (toRendered ⟨1/2, Dimension.frequency, none⟩).mantissa < 1000) ∧
    ((1 : ℚ) ≤ (1/2) / pow10 (SIPfx.exp10 SIPfx.d) ∧
        (1/2 : ℚ) / pow10 (SIPfx.exp10 SIPfx.d) < 1000) := by
  have h := toRendered_of_fresh ⟨1/2, Dimension.frequency, none⟩ (by norm_num) rfl
  have hch : chooseExp expTable ((1 : ℚ)/2) = 0 := by
    norm_num [chooseExp, expTable, pow10_eq_zpow]
  have hpf : pfxOfExp 0 = none := by decide
  have hsel : selectPfx |(1 : ℚ)/2| = none := by
    rw [abs_of_pos (by norm_num : (0 : ℚ) < 1/2), selectPfx, hch, hpf]
  rw [h]
  rw [show |((⟨1/2, Dimension.frequency, none⟩ : Quantity).value)| = |(1 : ℚ)/2| from rfl, hsel]
  norm_num [optExp, SIPfx.exp10, pow10_eq_zpow]

/-- Claim C2 (amended): to_string renders with no SI prefix when the stored
value is exactly zero; when original_prefix is set (and the value is nonzero)
that prefix is used; otherwise the chosen prefix is the largest table entry
whose exponent threshold lies strictly below the absolute value, which places
the absolute mantissa in the interval (0.1, 100] whenever the absolute value
lies within the span of the prefix table (pinned by the test vectors 0.5 Hz,
1 daA and -0.123456789 GHz, which contradict the spec's claimed mantissa
interval [1, 1000)). -/
theorem C2_amended (q : Quantity) :
    (q.value = 0 → (toRendered q).pfx = none ∧ (toRendered q).mantissa = 0) ∧
    (∀ px, q.value ≠ 0 → q.origPfx = some px → (toRendered q).pfx = some px) ∧
    (q.value ≠ 0 → q.origPfx = none → pow10 (-25) < |q.value| → |q.value| ≤ pow10 24 →
      (1 : ℚ)/10 < |(toRendered q).mantissa| ∧ |(toRendered q).mantissa| ≤ 100) := by
  refine ⟨?_, ?_, ?_⟩
  · intro h0
    rw [toRendered_of_zero q h0]
    exact ⟨rfl, rfl⟩
  · intro px h0 hpx
    rw [toRendered_of_kept q px h0 hpx]
  · intro h0 hpx hlo hhi
    have hsel := selectPfx_lb |q.value| hlo
    have hsel2 := selectPfx_ub |q.value| hhi
    set e : ℤ := optExp (selectPfx |q.value|) with he
    have hmant : (toRendered q).mantissa = q.value / pow10 e := by
      rw [toRendered_of_fresh q h0 hpx]
    have habs : |(toRendered q).mantissa| = |q.value| / pow10 e := by
      rw [hmant, abs_div, abs_of_pos (pow10_pos e)]
    have hp1 : pow10 e = pow10 (e - 1) * 10 := by
      have h' : e = (e - 1) + 1 := by omega
      nth_rewrite 1 [h']
      rw [pow10_add, pow10_one]
    have hp2 : pow10 (e + 2) = pow10 e * 100 := by
      rw [pow10_add, pow10_two]
    constructor
    · rw [habs, div_lt_div_iff₀ (by norm_num) (pow10_pos e)]
      nlinarith [pow10_pos (e - 1)]
    · rw [habs, div_le_iff₀ (pow10_pos e)]
      nlinarith [pow10_pos e]

/-- Claim C2 witness: the amended statement evaluated at the quantity with
value 1234 seconds (rendered by the tests as 1.234 ks): its mantissa has
absolute value in (0.1, 100]. -/
theorem C2_w :
    (1 : ℚ)/10 < |(toRendered ⟨1234, Dimension.time, none⟩).mantissa| ∧
    |(toRendered ⟨1234, Dimension.time, none⟩).mantissa| ≤ 100 :=
  (C2_amended ⟨1234, Dimension.time, none⟩).2.2 (by norm_num) rfl
    (by
      show pow10 (-25) < |(1234 : ℚ)|
      rw [pow10_eq_zpow, abs_of_pos (by norm_num : (0 : ℚ) < 1234)]
      norm_num)
    (by
      show |(1234 : ℚ)| ≤ pow10 24
      rw [pow10_eq_zpow, abs_of_pos (by norm_num : (0 : ℚ) < 1234)]
      norm_num)

/-- Claim C4: comparing two Quantities of unequal dimensions with any
comparison operator fails with IncompatibleDimensions and never returns a
boolean, while assert_dimension with the exception flag cleared returns the
boolean dimension check and never raises. -/
theorem C4_thm (q1 q2 : Quantity) (op : CmpOp) (d : Dimension)
    (h : q1.dimension ≠ q2.dimension) :
    compareQ q1 q2 op = .error .incompatibleDimensions ∧
    assertDimension q1 d false = .ok (decide (q1.dimension = d)) := by
  constructor
  · simp [compareQ, h]
  · by_cases hd : q1.dimension = d <;> simp [assertDimension, hd]

/-- Claim C4 witness: the theorem applied to a time Quantity and a frequency
Quantity (the mismatched pair of the test suite). -/
theorem C4_w :
    compareQ ⟨1, Dimension.time, none⟩ ⟨1, Dimension.frequency, none⟩ CmpOp.cgt
      = .error .incompatibleDimensions ∧
    assertDimension ⟨1, Dimension.time, none⟩ Dimension.frequency false
      = .ok (decide (Dimension.time = Dimension.frequency)) :=
  C4_thm ⟨1, Dimension.time, none⟩ ⟨1, Dimension.frequency, none⟩ CmpOp.cgt
    Dimension.frequency (by decide)

/-- Claim C5: re-parsing the rendered form of any Quantity succeeds and
yields a Quantity with exactly the same stored value (the embedding is exact
where the real code is within floating tolerance) and the same dimension;
only the recorded prefix may differ from the original. -/
theorem C5_thm (q : Quantity) :
    ∃ q2, parseRendered (toRendered q) = .ok q2 ∧
      q2.value = q.value ∧ q2.dimension = q.dimension := by
  have hu : alookup unitList (unitOf q.dimension) = some q.dimension := by
    cases q.dimension <;> rfl
  by_cases h0 : q.value = 0
  · refine ⟨⟨0 * pow10 (optExp none), q.dimension, none⟩, ?_, ?_, rfl⟩
    · rw [toRendered_of_zero q h0]
      simp [parseRendered, hu]
    · simp [h0]
  · cases hpx : q.origPfx with
    | some px =>
        refine ⟨⟨q.value / pow10 px.exp10 * pow10 (optExp (some px)), q.dimension, some px⟩,
          ?_, ?_, rfl⟩
        · rw [toRendered_of_kept q px h0 hpx]
          simp [parseRendered, hu]
        · simp only [optExp]
          exact div_mul_cancel₀ q.value (pow10_ne_zero px.exp10)
    | none =>
        refine ⟨⟨q.value / pow10 (optExp (selectPfx |q.value|)) *
            pow10 (optExp (selectPfx |q.value|)), q.dimension, selectPfx |q.value|⟩, ?_, ?_, rfl⟩
        · rw [toRendered_of_fresh q h0 hpx]
          simp [parseRendered, hu]
        · exact div_mul_cancel₀ q.value (pow10_ne_zero (optExp (selectPfx |q.value|)))

theorem takeWhile_all_append {α : Type} (p : α → Bool) (ds r : List α)
    (hds : ∀ x ∈ ds, p x = true)
    (hr : ∀ c r2, r = c :: r2 → p c = false) :
    (ds ++ r).takeWhile p = ds ∧ (ds ++ r).dropWhile p = r := by
  induction ds with
  | nil =>
      simp only [List.nil_append]
      cases r with
      | nil => exact ⟨rfl, rfl⟩
      | cons c r2 =>
          have hc := hr c r2 rfl
          constructor
          · simp [List.takeWhile_cons, hc]
          · simp [List.dropWhile_cons, hc]
  | cons d ds2 ih =>
      have hd : p d = true := hds d (List.mem_cons_self d ds2)
      have ih2 := ih (fun x hx => hds x (List.mem_cons_of_mem d hx))
      constructor
      · rw [List.cons_append]
        simp only [List.takeWhile_cons, hd, if_true]
        rw [ih2.1]
      · rw [List.cons_append]
        simp only [List.dropWhile_cons, hd, if_true]
        exact ih2.2

theorem isDigit_not_sign {c : Char} (h : Char.isDigit c = true) :
    ¬ (c = '-') ∧ ¬ (c = '+') := by
  constructor <;> (intro hc; subst hc; exact absurd h (by decide))

theorem signSplit_join (l : Str) : (signSplit l).2.1 ++ (signSplit l).2.2 = l := by
  cases l with
  | nil => rfl
  | cons c r =>
      by_cases h1 : c = '-'
      · subst h1; rfl
      · by_cases h2 : c = '+'
        · subst h2; rfl
        · simp [signSplit, h1, h2]

theorem signSplit_sc_shape (l : Str) : SignShape (signSplit l).2.1 := by
  cases l with
  | nil => exact Or.inl rfl
  | cons c r =>
      by_cases h1 : c = '-'
      · subst h1; exact Or.inr (Or.inl rfl)
      · by_cases h2 : c = '+'
        · subst h2; exact Or.inr (Or.inr rfl)
        · simp [signSplit, h1, h2]
          exact Or.inl rfl

theorem signSplit_of_shape (sc rest : Str) (hs : SignShape sc)
    (hd : ∀ c r2, rest = c :: r2 → Char.isDigit c = true) :
    (signSplit (sc ++ rest)).2.1 = sc ∧ (signSplit (sc ++ rest)).2.2 = rest := by
  rcases hs with h | h | h
  · subst h
    simp only [List.nil_append]
    cases rest with
    | nil => exact ⟨rfl, rfl⟩
    | cons c r2 =>
        have hdig := hd c r2 rfl
        have hns := isDigit_not_sign hdig
        simp [signSplit, hns.1, hns.2]
  · subst h; exact ⟨rfl, rfl⟩
  · subst h; exact ⟨rfl, rfl⟩

theorem parseFrac_split (l : Str) (fv : ℚ) (fc r : Str)
    (h : parseFrac l = some (fv, fc, r)) :
    l = fc ++ r ∧ FracShape fc := by
  cases l with
  | nil =>
      rw [parseFrac] at h
      simp only [Option.some.injEq, Prod.mk.injEq] at h
      obtain ⟨-, h2, h3⟩ := h
      subst h2; subst h3
      exact ⟨rfl, Or.inl rfl⟩
  | cons c rl =>
      rw [parseFrac] at h
      by_cases hc : c = '.'
      · rw [if_pos hc] at h
        by_cases hemp : (rl.takeWhile Char.isDigit).isEmpty
        · simp only [hemp, if_true] at h
          cases h
        · rw [if_neg (by simpa using hemp)] at h
          simp only [Option.some.injEq, Prod.mk.injEq] at h
          obtain ⟨-, h2, h3⟩ := h
          subst hc; subst h2; subst h3
          constructor
          · rw [List.cons_append]
            congr 1
            exact (List.takeWhile_append_dropWhile Char.isDigit rl).symm
          · refine Or.inr ⟨rl.takeWhile Char.isDigit, rfl, ?_, ?_⟩
            · intro hne
              rw [hne] at hemp
              exact hemp rfl
            · intro x hx
              exact List.mem_takeWhile_imp hx
      · rw [if_neg hc] at h
        simp only [Option.some.injEq, Prod.mk.injEq] at h
        obtain ⟨-, h2, h3⟩ := h
        subst h2; subst h3
        exact ⟨rfl, Or.inl rfl⟩

theorem expTail_split (ch : Char) (rl : Str) (ev : ℤ) (ec r : Str)
    (h : expTail ch rl = some (ev, ec, r)) :
    rl = (signSplit rl).2.1 ++ ((signSplit rl).2.2.takeWhile Char.isDigit ++ r) ∧
      ec = ch :: ((signSplit rl).2.1 ++ (signSplit rl).2.2.takeWhile Char.isDigit) ∧
      (signSplit rl).2.2.takeWhile Char.isDigit ≠ [] := by
  rw [expTail] at h
  by_cases hemp : ((signSplit rl).2.2.takeWhile Char.isDigit).isEmpty
  · simp only [hemp, if_true] at h
    cases h
  · rw [if_neg (by simpa using hemp)] at h
    simp only [Option.some.injEq, Prod.mk.injEq] at h
    obtain ⟨-, h2, h3⟩ := h
    subst h2; subst h3
    refine ⟨?_, rfl, ?_⟩
    · conv_lhs => rw [← signSplit_join rl]
      congr 1
      exact (List.takeWhile_append_dropWhile Char.isDigit (signSplit rl).2.2).symm
    · intro hne
      rw [hne] at hemp
      exact hemp rfl

theorem parseExpPart_split (l : Str) (ev : ℤ) (ec r : Str)
    (h : parseExpPart l = some (ev, ec, r)) :
    l = ec ++ r ∧ ExpShape ec := by
  cases l with
  | nil =>
      rw [parseExpPart] at h
      simp only [Option.some.injEq, Prod.mk.injEq] at h
      obtain ⟨-, h2, h3⟩ := h
      subst h2; subst h3
      exact ⟨rfl, Or.inl rfl⟩
  | cons c rl =>
      rw [parseExpPart] at h
      by_cases hc : c = 'e' ∨ c = 'E'
      · rw [if_pos hc] at h
        obtain ⟨hsplit, hec, hne⟩ := expTail_split c rl ev ec r h
        constructor
        · rw [hec, List.cons_append, List.append_assoc]
          rw [← hsplit]
        · refine Or.inr ⟨c, (signSplit rl).2.1, (signSplit rl).2.2.takeWhile Char.isDigit,
            hec, hc, signSplit_sc_shape rl, hne, ?_⟩
          intro x hx
          exact List.mem_takeWhile_imp hx
      · rw [if_neg hc] at h
        simp only [Option.some.injEq, Prod.mk.injEq] at h
        obtain ⟨-, h2, h3⟩ := h
        subst h2; subst h3
        exact ⟨rfl, Or.inl rfl⟩

theorem expShape_head_not_digit (ec : Str) (hec : ExpShape ec) :
    ∀ c r2, ec = c :: r2 → Char.isDigit c = false := by
  intro c r2 hce
  rcases hec with h | ⟨mk, sc2, ds3, h, hmk, -, -, -⟩
  · rw [h] at hce; cases hce
  · rw [h] at hce
    have : mk = c := (List.cons.injEq mk _ c r2 ▸ hce).1
    subst this
    rcases hmk with rfl | rfl <;> decide

theorem expOkB_parts (ec : Str) (hec : ExpShape ec) : expOkB ec = true := by
  rcases hec with h | ⟨mk, sc2, ds3, h, hmk, hsc, hne, hdig⟩
  · rw [h]; rfl
  · subst h
    rw [expOkB, if_pos hmk]
    have hsp := signSplit_of_shape sc2 ds3 hsc (fun c r2 hcr => hdig c (by rw [hcr]; exact List.mem_cons_self c r2))
    rw [expDigitsOk, hsp.2]
    have h1 : ds3.isEmpty = false := by
      cases ds3 with
      | nil => exact absurd rfl hne
      | cons a b => rfl
    rw [h1]
    simp only [Bool.not_false, Bool.true_and]
    rw [List.all_eq_true]
    exact hdig

theorem fracOkB_parts (fc ec : Str) (hfc : FracShape fc) (hec : ExpShape ec) :
    fracOkB (fc ++ ec) = true := by
  have hexp := expOkB_parts ec hec
  rcases hfc with h | ⟨ds2, h, hne, hdig⟩
  · subst h
    rw [List.nil_append]
    rcases hec with h2 | ⟨mk, sc2, ds3, h2, hmk, -, -, -⟩
    · rw [h2]; rfl
    · have hnd : ¬ (mk = '.') := by
        rcases hmk with rfl | rfl <;> decide
      rw [h2, fracOkB, if_neg hnd, ← h2]
      exact hexp
  · subst h
    rw [List.cons_append, fracOkB, if_pos rfl]
    have hta := takeWhile_all_append Char.isDigit ds2 ec hdig (expShape_head_not_digit ec hec)
    have h1 : ds2.isEmpty = false := by
      cases ds2 with
      | nil => exact absurd rfl hne
      | cons a b => rfl
    simp only [hta.1, hta.2, h1, Bool.not_false, Bool.true_and]
    exact hexp

theorem fracShape_head_not_digit (fc ec : Str) (hfc : FracShape fc) (hec : ExpShape ec) :
    ∀ c r2, fc ++ ec = c :: r2 → Char.isDigit c = false := by
  intro c r2 hce
  rcases hfc with h | ⟨ds2, h, -, -⟩
  · rw [h, List.nil_append] at hce
    exact expShape_head_not_digit ec hec c r2 hce
  · rw [h, List.cons_append] at hce
    have : ('.' : Char) = c := (List.cons.injEq '.' _ c r2 ▸ hce).1
    subst this
    decide

theorem numTok_parts (sc ds fc ec : Str) (hsc : SignShape sc) (hne : ds ≠ [])
    (hdig : ∀ x ∈ ds, Char.isDigit x = true) (hfc : FracShape fc) (hec : ExpShape ec) :
    numTokenB (sc ++ (ds ++ (fc ++ ec))) = true := by
  have hdhead : ∀ c r2, ds ++ (fc ++ ec) = c :: r2 → Char.isDigit c = true := by
    intro c r2 hce
    cases ds with
    | nil => exact absurd rfl hne
    | cons a b =>
        rw [List.cons_append] at hce
        have : a = c := (List.cons.injEq a _ c r2 ▸ hce).1
        subst this
        exact hdig a (List.mem_cons_self a b)
  have hsp := signSplit_of_shape sc (ds ++ (fc ++ ec)) hsc hdhead
  rw [numTokenB, hsp.2]
  have hta := takeWhile_all_append Char.isDigit ds (fc ++ ec) hdig
    (fracShape_head_not_digit fc ec hfc hec)
  rw [hta.1, hta.2]
  have h1 : ds.isEmpty = false := by
    cases ds with
    | nil => exact absurd rfl hne
    | cons a b => rfl
  rw [h1]
  simp only [Bool.not_false, Bool.true_and]
  exact fracOkB_parts fc ec hfc hec

theorem parseNumber_split (l : Str) (v : ℚ) (tok rest : Str)
    (h : parseNumber l = some (v, tok, rest)) :
    l = tok ++ rest ∧ numTokenB tok = true := by
  rw [parseNumber] at h
  by_cases hemp : ((signSplit l).2.2.takeWhile Char.isDigit).isEmpty
  · simp only [hemp, if_true] at h
    cases h
  · rw [if_neg (by simpa using hemp)] at h
    split at h
    next hpf => cases h
    next fv fc l3 hpf =>
      split at h
      next hpe => cases h
      next ev ec l4 hpe =>
        simp only [Option.some.injEq, Prod.mk.injEq] at h
        obtain ⟨-, h2, h3⟩ := h
        subst h2; subst h3
        have hpfs := parseFrac_split _ _ _ _ hpf
        have hpes := parseExpPart_split _ _ _ _ hpe
        have hne : (signSplit l).2.2.takeWhile Char.isDigit ≠ [] := by
          intro hnil
          rw [hnil] at hemp
          exact hemp rfl
        constructor
        · conv_lhs => rw [← signSplit_join l]
          conv_lhs =>
            rw [← List.takeWhile_append_dropWhile Char.isDigit (signSplit l).2.2]
          rw [hpfs.1, hpes.1]
          simp only [List.append_assoc]
        · have htok : (signSplit l).2.1 ++ (signSplit l).2.2.takeWhile Char.isDigit ++
              fc ++ ec = (signSplit l).2.1 ++ ((signSplit l).2.2.takeWhile Char.isDigit ++
              (fc ++ ec)) := by
            simp only [List.append_assoc]
          rw [htok]
          exact numTok_parts _ _ _ _ (signSplit_sc_shape l) hne
            (fun x hx => List.mem_takeWhile_imp hx) hpfs.2 hpes.2

theorem fromChars_sound (l : Str) (q : Quantity) (h : fromChars l = .ok q) :
    matchesTextFormat (stripChars l) := by
  rw [fromChars] at h
  split at h
  next hpn => cases h
  next v tok rest hpn =>
    split at h
    next hemp => cases h
    next hemp =>
      split at h
      next hru => cases h
      next d px hru =>
        have hsplit := parseNumber_split _ _ _ _ hpn
        refine ⟨tok, rest.takeWhile isWsChar, rest.dropWhile isWsChar, ?_, hsplit.2, ?_, ?_⟩
        · rw [hsplit.1, List.append_assoc]
          congr 1
          exact (List.takeWhile_append_dropWhile isWsChar rest).symm
        · rw [List.all_eq_true]
          intro x hx
          exact List.mem_takeWhile_imp hx
        · rw [hru]; rfl

theorem dropWhile_append_allP {α : Type} (p : α → Bool) (w x : List α)
    (hw : ∀ c ∈ w, p c = true) :
    (w ++ x).dropWhile p = x.dropWhile p := by
  induction w with
  | nil => rfl
  | cons a w2 ih =>
      rw [List.cons_append, List.dropWhile_cons]
      simp only [hw a (List.mem_cons_self a w2), if_true]
      exact ih (fun c hc => hw c (List.mem_cons_of_mem a hc))

theorem stripR_append_ws (y w : Str) (hw : ∀ c ∈ w, isWsChar c = true) :
    stripR (y ++ w) = stripR y := by
  unfold stripR
  rw [List.reverse_append]
  rw [dropWhile_append_allP isWsChar w.reverse y.reverse
    (fun c hc => hw c (List.mem_reverse.mp hc))]

theorem stripL_append_of_ne_nil (x y : Str) (h : stripL x ≠ []) :
    stripL (x ++ y) = stripL x ++ y := by
  induction x with
  | nil => exact absurd rfl h
  | cons a x2 ih =>
      by_cases ha : isWsChar a = true
      · have h2 : stripL x2 ≠ [] := by
          intro h3
          apply h
          unfold stripL at h3 ⊢
          rw [List.dropWhile_cons]
          simp only [ha, if_true]
          exact h3
        unfold stripL at ih ⊢
        rw [List.cons_append, List.dropWhile_cons, List.dropWhile_cons]
        simp only [ha, if_true]
        exact ih h2
      · unfold stripL
        rw [List.cons_append, List.dropWhile_cons, List.dropWhile_cons]
        simp only [ha, Bool.false_eq_true, if_false, List.cons_append]

theorem strip_pad (w1 w2 s : Str) (h1 : ∀ c ∈ w1, isWsChar c = true)
    (h2 : ∀ c ∈ w2, isWsChar c = true) :
    stripChars (w1 ++ s ++ w2) = stripChars s := by
  unfold stripChars
  have ha : stripL (w1 ++ (s ++ w2)) = stripL (s ++ w2) := dropWhile_append_allP isWsChar w1 (s ++ w2) h1
  rw [List.append_assoc, ha]
  by_cases hnil : stripL s = []
  · have hs_all : ∀ c ∈ s, isWsChar c = true := by
      intro c hc
      exact List.dropWhile_eq_nil_iff.mp hnil c hc
    have hall : stripL (s ++ w2) = [] := by
      unfold stripL
      rw [List.dropWhile_eq_nil_iff]
      intro c hc
      rcases List.mem_append.mp hc with hm | hm
      · exact hs_all c hm
      · exact h2 c hm
    rw [hall, hnil]
  · rw [stripL_append_of_ne_nil s w2 hnil]
    exact stripR_append_ws (stripL s) w2 h2

/-- Claim C8 counterexample: the character string consisting of a space, the
digit 5, a space and the unit s parses successfully even though it does not
match the published text format (a numeric token cannot begin with a space),
so from_string does not fail on every input outside the format. -/
theorem C8_cx :
    exOk (fromChars [ ' ', '5', ' ', 's' ]) = true ∧
    ¬ matchesTextFormat [ ' ', '5', ' ', 's' ] := by
  constructor
  · decide
  · rintro ⟨ntok, wsp, utok, heq, hnum, -, -⟩
    cases ntok with
    | nil =>
        have : numTokenB [] = false := rfl
        rw [this] at hnum
        cases hnum
    | cons c nt2 =>
        have hc : c = ' ' := by
          have := congrArg (fun t => t.head?) heq
          simp only [List.cons_append, List.head?_cons] at this
          exact (Option.some.injEq _ _ ▸ this).symm
        subst hc
        have : numTokenB (' ' :: nt2) = false := rfl
        rw [this] at hnum
        cases hnum

/-- Claim C8 (amended): after discarding leading and trailing whitespace
(which the code accepts although the published format omits it), from_string
fails on every input whose stripped form is not a numeric token, optional
whitespace and a prefixed-unit word -- in particular on the empty string, a
bare number, a bare unit and a number glued to an unregistered unit word --
and parsing 5s is identical to parsing 5 s. -/
theorem C8_amended :
    (∀ l q, fromChars l = .ok q → matchesTextFormat (stripChars l)) ∧
    fromChars [] = .error PErr.badNumber ∧
    fromChars [ '0' ] = .error PErr.noUnit ∧
    fromChars [ 's' ] = .error PErr.badNumber ∧
    fromChars [ '0', 's', 'e', 'c', 'o', 'n', 'd', 's' ] = .error PErr.unknownUnit ∧
    fromChars [ '5', 's' ] = fromChars [ '5', ' ', 's' ] := by
  refine ⟨fromChars_sound, by decide, by decide, by decide, by decide, rfl⟩

/-- Claim C8 witness: the soundness direction of the amended claim applied to
the successfully parsed input 5s. -/
theorem C8_w : matchesTextFormat (stripChars [ '5', 's' ]) := by
  cases hq : fromChars [ '5', 's' ] with
  | error e =>
      have : exOk (fromChars [ '5', 's' ]) = true := by decide
      rw [hq] at this
      cases this
  | ok q => exact C8_amended.1 [ '5', 's' ] q hq

/-- Claim C10: from_string accepts and ignores arbitrary leading and
trailing whitespace (spaces and tabs alike) around a quantity string that
parses successfully, returning the identical result, even though the
published text format grammar includes no surrounding whitespace. -/
theorem C10_thm (w1 w2 s : Str) (h1 : ∀ c ∈ w1, isWsChar c = true)
    (h2 : ∀ c ∈ w2, isWsChar c = true) (_hs : exOk (fromChars s) = true) :
    fromChars (w1 ++ s ++ w2) = fromChars s := by
  rw [fromChars, fromChars, strip_pad w1 w2 s h1 h2]

/-- Claim C10 witness: a space-and-tab padding of the parseable string 5 s
parses to the identical result. -/
theorem C10_w :
    fromChars ([ ' ', '\t' ] ++ [ '5', ' ', 's' ] ++ [ ' ' ]) = fromChars [ '5', ' ', 's' ] :=
  C10_thm [ ' ', '\t' ] [ ' ' ] [ '5', ' ', 's' ] (by decide) (by decide) (by decide)

theorem alookup_cons {α β : Type} [DecidableEq α] (x : α × β) (xs : List (α × β)) (key : α) :
    alookup (x :: xs) key = if x.1 = key then some x.2 else alookup xs key := by
  by_cases hx : x.1 = key
  · rw [if_pos hx]
    unfold alookup
    rw [List.find?_cons_of_pos _ (by simpa using hx)]
    rfl
  · rw [if_neg hx]
    unfold alookup
    rw [List.find?_cons_of_neg _ (by simpa using hx)]

theorem alookup_append {α β : Type} [DecidableEq α] (a b : List (α × β)) (key : α) :
    alookup (a ++ b) key = (alookup a key).or (alookup b key) := by
  induction a with
  | nil => rfl
  | cons x xs ih =>
      rw [List.cons_append, alookup_cons, alookup_cons]
      by_cases hx : x.1 = key
      · rw [if_pos hx, if_pos hx]
        rfl
      · rw [if_neg hx, if_neg hx]
        exact ih

theorem insAll_append (vs : List (Str × VarKind)) (a b : List (Str × VarKind)) :
    insAll vs (a ++ b) = insAll (insAll vs a) b := by
  unfold insAll
  rw [List.foldl_append]

theorem alookup_insAll (ps : List (Str × VarKind)) (vs : List (Str × VarKind)) (key : Str) :
    alookup (insAll vs ps) key = (alookup vs key).or (alookup ps key) := by
  induction ps generalizing vs with
  | nil =>
      show alookup vs key = (alookup vs key).or (alookup [] key)
      rw [show alookup ([] : List (Str × VarKind)) key = none from rfl, Option.or_none]
  | cons pr t ih =>
      have hstep : insAll vs (pr :: t) = insAll (insOne vs pr) t := rfl
      rw [hstep, ih, alookup_cons]
      unfold insOne
      by_cases hmem : (alookup vs pr.1).isSome
      · rw [if_pos hmem]
        by_cases hk : pr.1 = key
        · subst hk
          obtain ⟨v, hv⟩ := Option.isSome_iff_exists.mp hmem
          rw [hv]
          rfl
        · rw [if_neg hk]
      · rw [if_neg hmem]
        rw [alookup_append]
        by_cases hk : pr.1 = key
        · subst hk
          have hnone : alookup vs pr.1 = none := by
            cases hv : alookup vs pr.1 with
            | none => rfl
            | some v => rw [hv] at hmem; exact absurd rfl hmem
          have h1 : alookup [ pr ] pr.1 = some pr.2 := by
            rw [alookup_cons, if_pos rfl]
          rw [hnone, h1, if_pos rfl]
          rfl
        · rw [if_neg hk]
          have h1 : alookup [ pr ] key = none := by
            rw [alookup_cons, if_neg hk]
            rfl
          rw [h1, Option.or_none]

theorem dupsFrom_append (a b : List (Str × VarKind)) (vs : List (Str × VarKind)) :
    dupsFrom vs (a ++ b) = dupsFrom vs a ++ dupsFrom (insAll vs a) b := by
  induction a generalizing vs with
  | nil => simp [dupsFrom, insAll]
  | cons pr t ih =>
      rw [List.cons_append, dupsFrom, dupsFrom]
      have hstep : insAll vs (pr :: t) = insAll (insOne vs pr) t := rfl
      by_cases hmem : (alookup vs pr.1).isSome
      · rw [if_pos hmem, if_pos hmem, hstep]
        unfold insOne
        rw [if_pos hmem]
        rw [ih vs, List.cons_append]
      · rw [if_neg hmem, if_neg hmem, hstep]
        unfold insOne
        rw [if_neg hmem]
        exact ih (vs ++ [ pr ])

theorem filter_map_redecl (l : List Str) :
    (l.map Err.redecl).filter isRedecl = l.map Err.redecl := by
  induction l with
  | nil => rfl
  | cons a t ih =>
      rw [List.map_cons, List.filter_cons]
      simp only [isRedecl, if_true]
      rw [ih]

theorem filter_map_nested (l : List Str) :
    (l.map Err.nestedDecl).filter isRedecl = [] := by
  induction l with
  | nil => rfl
  | cons a t ih =>
      rw [List.map_cons, List.filter_cons]
      simp only [isRedecl, Bool.false_eq_true, if_false]
      exact ih

mutual
theorem declNode_pos (d : ℕ) (hd : ¬ d = 0) (e : Env) (x : Node) :
    declNode d e x = { e with errors := e.errors ++ (declNamesN x).map Err.nestedDecl } := by
  match x with
  | .decl k names =>
      rw [declNode, if_neg hd, declNamesN]
  | .times c body =>
      rw [declNode, declNamesN]
      exact declNodes_pos (d + 1) (by omega) e body
  | .assign p v => simp [declNode, declNamesN]
  | .delayName nm => simp [declNode, declNamesN]
  | .quantN q => simp [declNode, declNamesN]
  | .par gs => simp [declNode, declNamesN]
  | .acquire => simp [declNode, declNamesN]
theorem declNodes_pos (d : ℕ) (hd : ¬ d = 0) (e : Env) (l : Nodes) :
    declNodes d e l = { e with errors := e.errors ++ (declNamesNs l).map Err.nestedDecl } := by
  match l with
  | .nil => simp [declNodes, declNamesNs]
  | .cons h t =>
      rw [declNodes, declNamesNs]
      rw [declNode_pos d hd e h]
      rw [declNodes_pos d hd _ t]
      simp [List.map_append, List.append_assoc]
end

theorem declareTop_present (k : VarKind) (e : Env) (nm : Str)
    (h : (alookup e.vars nm).isSome) :
    declareTop k e nm = { e with errors := e.errors ++ [ Err.redecl nm ] } := by
  unfold declareTop
  rw [if_pos h]

theorem declareTop_fresh (k : VarKind) (e : Env) (nm : Str)
    (h : ¬ (alookup e.vars nm).isSome) :
    declareTop k e nm = { e with vars := e.vars ++ [ (nm, k) ] } := by
  unfold declareTop
  rw [if_neg h]

theorem foldl_declareTop (k : VarKind) (names : List Str) : ∀ (e : Env),
    (names.foldl (declareTop k) e).vars = insAll e.vars (names.map (fun x => (x, k))) ∧
    (names.foldl (declareTop k) e).errors =
      e.errors ++ (dupsFrom e.vars (names.map (fun x => (x, k)))).map Err.redecl := by
  induction names with
  | nil =>
      intro e
      simp [insAll, dupsFrom]
  | cons nm t ih =>
      intro e
      rw [List.foldl_cons, List.map_cons, dupsFrom]
      have hins : insAll e.vars ((nm, k) :: t.map (fun x => (x, k))) =
          insAll (insOne e.vars (nm, k)) (t.map (fun x => (x, k))) := rfl
      rw [hins]
      by_cases hmem : (alookup e.vars nm).isSome
      · rw [declareTop_present k e nm hmem, if_pos hmem]
        have hio : insOne e.vars (nm, k) = e.vars := by
          unfold insOne
          rw [if_pos hmem]
        rw [hio]
        have ih2 := ih { e with errors := e.errors ++ [ Err.redecl nm ] }
        refine ⟨ih2.1, ?_⟩
        rw [ih2.2]
        simp [List.append_assoc]
      · rw [declareTop_fresh k e nm hmem, if_neg hmem]
        have hio : insOne e.vars (nm, k) = e.vars ++ [ (nm, k) ] := by
          unfold insOne
          rw [if_neg hmem]
        rw [hio]
        exact ih { e with vars := e.vars ++ [ (nm, k) ] }

theorem declNode0 (e : Env) (x : Node) :
    (declNode 0 e x).vars = insAll e.vars (topDecls1 x) ∧
    (declNode 0 e x).errors.filter isRedecl =
      e.errors.filter isRedecl ++ (dupsFrom e.vars (topDecls1 x)).map Err.redecl := by
  match x with
  | .decl k names =>
      rw [declNode, if_pos rfl, topDecls1]
      have hf := foldl_declareTop k names e
      refine ⟨hf.1, ?_⟩
      rw [hf.2, List.filter_append, filter_map_redecl]
  | .times c body =>
      rw [declNode]
      rw [declNodes_pos 1 (by omega) e body]
      simp only [topDecls1]
      simp only [List.filter_append, filter_map_nested, List.append_nil]
      simp [insAll, dupsFrom]
  | .assign p v => simp [declNode, topDecls1, insAll, dupsFrom]
  | .delayName nm => simp [declNode, topDecls1, insAll, dupsFrom]
  | .quantN q => simp [declNode, topDecls1, insAll, dupsFrom]
  | .par gs => simp [declNode, topDecls1, insAll, dupsFrom]
  | .acquire => simp [declNode, topDecls1, insAll, dupsFrom]

theorem declNodes0 (prog : Nodes) : ∀ (e : Env),
    (declNodes 0 e prog).vars = insAll e.vars (topDecls prog) ∧
    (declNodes 0 e prog).errors.filter isRedecl =
      e.errors.filter isRedecl ++ (dupsFrom e.vars (topDecls prog)).map Err.redecl := by
  match prog with
  | .nil =>
      intro e
      simp [declNodes, topDecls, insAll, dupsFrom]
  | .cons h t =>
      intro e
      rw [declNodes, topDecls]
      have h1 := declNode0 e h
      have h2 := declNodes0 t (declNode 0 e h)
      constructor
      · rw [h2.1, h1.1, insAll_append]
      · rw [h2.2, h1.2, h1.1, dupsFrom_append]
        simp [List.map_append, List.append_assoc]

/-- Claim C6: during the declarations stage, each re-declaration of an
already-declared top-level name is recorded as exactly one Re-declaration
error (so n extra declarations of one name yield n such errors, in traversal
order), the variables mapping receives exactly the first-wins insertion of
the declared occurrences (each name keeps the kind of its first
declaration), and traversal continues past every re-declaration. -/
theorem C6_thm (prog : Nodes) (env : Env) :
    (declNodes 0 env prog).vars = insAll env.vars (topDecls prog) ∧
    (declNodes 0 env prog).errors.filter isRedecl =
      env.errors.filter isRedecl ++ (dupsFrom env.vars (topDecls prog)).map Err.redecl ∧
    ∀ nm : Str, alookup (declNodes 0 env prog).vars nm =
      (alookup env.vars nm).or (alookup (topDecls prog) nm) := by
  have h := declNodes0 prog env
  refine ⟨h.1, h.2, ?_⟩
  intro nm
  rw [h.1]
  exact alookup_insAll (topDecls prog) env.vars nm

/-- Claim C9: a declaration appearing inside a times block body is recorded
as one Declaration-kind error per declared name during the declarations
stage and is not inserted into the variables mapping (the whole Environment
is unchanged except for the appended errors). -/
theorem C9_thm (env : Env) (c : RepC) (k : VarKind) (names : List Str) :
    declNodes 0 env (.cons (.times c (.cons (.decl k names) .nil)) .nil) =
      { env with errors := env.errors ++ names.map Err.nestedDecl } := by
  rw [declNodes, declNode]
  rw [declNodes_pos 1 (by omega) env (.cons (.decl k names) .nil)]
  rw [declNodes]
  simp [declNamesNs, declNamesN]

theorem outComp_assoc (a b c : OutSeg) :
    OutSeg.comp (OutSeg.comp a b) c = OutSeg.comp a (OutSeg.comp b c) := by
  unfold OutSeg.comp
  refine Prod.ext ?_ ?_
  · simp [List.append_assoc]
  · simp only [List.map_append, List.map_map, List.length_append, List.append_assoc]
    congr 2
    apply List.map_congr_left
    intro x hx
    simp only [Function.comp_apply]
    omega

theorem Seg.comp_assoc (s t u : Seg) :
    Seg.comp (Seg.comp s t) u = Seg.comp s (Seg.comp t u) := by
  unfold Seg.comp
  induction s generalizing t u with
  | nil => rfl
  | cons a s2 ih =>
      cases t with
      | nil => rfl
      | cons b t2 =>
          cases u with
          | nil => rfl
          | cons c u2 =>
              simp only [List.zipWith_cons_cons]
              rw [outComp_assoc, ih t2 u2]

theorem Seg.comp_length (s t : Seg) : (Seg.comp s t).length = min s.length t.length := by
  unfold Seg.comp
  rw [List.length_zipWith]

theorem Seg.one_length (s : Seg) : (Seg.one s).length = s.length := by
  unfold Seg.one
  rw [List.length_map]

theorem Seg.npow_length (n : ℕ) (s : Seg) : (Seg.npow n s).length = s.length := by
  induction n with
  | zero => exact Seg.one_length s
  | succ nn ih =>
      rw [Seg.npow, Seg.comp_length, ih]
      exact min_self s.length

theorem comp_getD (s t : Seg) (h : s.length = t.length) (j : ℕ) :
    (Seg.comp s t).getD j ([], []) = OutSeg.comp (s.getD j ([], [])) (t.getD j ([], [])) := by
  induction s generalizing t j with
  | nil =>
      cases t with
      | nil => cases j <;> rfl
      | cons b t2 => simp at h
  | cons a s2 ih =>
      cases t with
      | nil => simp at h
      | cons b t2 =>
          cases j with
          | zero => rfl
          | succ jj =>
              show (Seg.comp (a :: s2) (b :: t2)).getD (jj + 1) ([], []) = _
              unfold Seg.comp
              simp only [List.zipWith_cons_cons, List.getD_cons_succ]
              exact ih t2 (by simpa using h) jj

theorem one_getD (s : Seg) (j : ℕ) : (Seg.one s).getD j ([], []) = ([], []) := by
  unfold Seg.one
  induction s generalizing j with
  | nil => cases j <;> rfl
  | cons a s2 ih =>
      cases j with
      | zero => rfl
      | succ jj =>
          simp only [List.map_cons, List.getD_cons_succ]
          exact ih jj

theorem repAcq_eq (nn : ℕ) (L : ℕ) (a : List ℕ) :
    repAcq (nn + 1) L a = a ++ (repAcq nn L a).map (· + L) := rfl

theorem npow_getD (n : ℕ) (s : Seg) (j : ℕ) :
    (Seg.npow n s).getD j ([], []) =
      (repWave n ((s.getD j ([], [])).1),
        repAcq n ((s.getD j ([], [])).1).length ((s.getD j ([], [])).2)) := by
  induction n with
  | zero =>
      rw [Seg.npow, one_getD]
      rfl
  | succ nn ih =>
      rw [Seg.npow]
      rw [comp_getD s (Seg.npow nn s) (by rw [Seg.npow_length]) j]
      rw [ih]
      unfold OutSeg.comp repWave
      rw [List.replicate_succ, List.flatten_cons]
      rfl

theorem repWave_length (n : ℕ) (w : List ℚ) : (repWave n w).length = n * w.length := by
  unfold repWave
  rw [List.length_flatten, List.map_replicate, List.sum_replicate, smul_eq_mul]

theorem repAcq_nil (n : ℕ) (L : ℕ) : repAcq n L [] = [] := by
  induction n with
  | zero => rfl
  | succ nn ih => rw [repAcq_eq, ih]; rfl

/-- Claim C7: rendering a times block renders its body once and produces,
on every output, sample and marker segments equal to N concatenated copies
of the body's segments (each copy's acquisition cursors shifted by one more
body length); in particular N = 0 contributes zero samples and the total
sample count is exactly N times the single-iteration count. -/
theorem C7_thm (env : Env) (n : ℕ) (body : Nodes) (s : Seg)
    (h : renderNodes env body = .ok s) :
    renderNode env (.times (.lit (n : ℤ)) body) = .ok (Seg.npow n s) ∧
    ∀ j : ℕ,
      ((Seg.npow n s).getD j ([], [])).1 =
        (List.replicate n ((s.getD j ([], [])).1)).flatten ∧
      ((Seg.npow n s).getD j ([], [])).1.length = n * ((s.getD j ([], [])).1.length) ∧
      ((Seg.npow n s).getD j ([], [])).2 =
        repAcq n ((s.getD j ([], [])).1.length) ((s.getD j ([], [])).2) := by
  constructor
  · have hrc : repCount env (.lit (n : ℤ)) = .ok n := by
      rw [repCount, if_neg (by omega)]
      norm_num
    rw [renderNode, hrc, h]
  · intro j
    have hg := npow_getD n s j
    refine ⟨?_, ?_, ?_⟩
    · rw [hg]
      rfl
    · rw [hg]
      exact repWave_length n _
    · rw [hg]

/-- Claim C7 witness: the theorem at the two-sample body and N = 2: the
repetition succeeds and yields exactly twice the single-iteration sample
count. -/
theorem C7_w :
    renderNode envC1 (.times (.lit ((2 : ℕ) : ℤ)) bodyC7) = .ok (Seg.npow 2 segC7) ∧
    ((Seg.npow 2 segC7).getD 0 ([], [])).1.length = 2 * ((segC7.getD 0 ([], [])).1.length) := by
  have hsam : samples envC1 qTwo = 2 := by
    have h1 : round ((2 : ℚ) / 1) = 2 := by norm_num
    show (round ((2 : ℚ) / 1)).toNat = 2
    rw [h1]
    rfl
  have h2 : renderNode envC1 (.quantN qTwo) = .ok (zeroSeg envC1 2) := by
    rw [renderNode, if_pos (show qTwo.dimension = Dimension.time from rfl), hsam]
  have hb : renderNodes envC1 bodyC7 = .ok segC7 := by
    show renderNodes envC1 (.cons (.quantN qTwo) .nil) = _
    rw [renderNodes, renderNodes, h2]
    rfl
  have hc := C7_thm envC1 2 bodyC7 segC7 hb
  exact ⟨hc.1, (hc.2 0).2.1⟩

theorem exMapM_error {α β ε : Type} (f : α → Except ε β) (l : List α) (x : α)
    (hx : x ∈ l) (e : ε) (he : f x = .error e) : ∃ e2, exMapM f l = .error e2 := by
  induction l with
  | nil => cases hx
  | cons y ys ih =>
      rw [exMapM]
      rcases List.mem_cons.mp hx with rfl | hmem
      · rw [he]
        exact ⟨e, rfl⟩
      · cases hf : f y with
        | error e3 => exact ⟨e3, rfl⟩
        | ok y2 =>
            obtain ⟨e2, he2⟩ := ih hmem
            rw [he2]
            exact ⟨e2, rfl⟩

theorem getDelay_missing (env : Env) (nm : Str)
    (hv : alookup env.values ((nm, none) : APath) = none) :
    getDelay env nm = .error (Err.missingValue ((nm, none) : APath)) := by
  unfold getDelay getTimeQty getQty
  rw [hv]

theorem renderComp_missing (env : Env) (nm : Str)
    (hv : alookup env.values ((nm, none) : APath) = none) :
    renderComp env (.delayC nm) = .error (Err.missingValue ((nm, none) : APath)) := by
  rw [renderComp, getDelay_missing env nm hv]

mutual
theorem mentions_error_node (env : Env) (nm : Str) (x : Node)
    (hm : mentionsDelay nm x = true)
    (hv : alookup env.values ((nm, none) : APath) = none) :
    ∃ e, renderNode env x = .error e := by
  match x with
  | .decl k names => simp [mentionsDelay] at hm
  | .assign p v => simp [mentionsDelay] at hm
  | .quantN q => simp [mentionsDelay] at hm
  | .acquire => simp [mentionsDelay] at hm
  | .delayName m =>
      have hmn : m = nm := by
        rw [mentionsDelay] at hm
        exact of_decide_eq_true hm
      subst hmn
      refine ⟨Err.missingValue ((m, none) : APath), ?_⟩
      rw [renderNode, getDelay_missing env m hv]
  | .par gs =>
      rw [mentionsDelay] at hm
      obtain ⟨g, hgmem, hginner⟩ := List.any_eq_true.mp hm
      obtain ⟨cc, hccmem, hcc⟩ := List.any_eq_true.mp hginner
      have hcomp : renderComp env cc = .error (Err.missingValue ((nm, none) : APath)) := by
        cases cc with
        | delayC m =>
            have hmn : m = nm := of_decide_eq_true hcc
            subst hmn
            exact renderComp_missing env m hv
        | pulseC m => simp at hcc
        | quantC q => simp at hcc
      obtain ⟨e1, hg1⟩ := exMapM_error (renderComp env) g.1 cc hccmem _ hcomp
      have hgrp : renderGrp env g = .error e1 := by
        rw [renderGrp, hg1]
      rw [renderNode, renderPar]
      cases hct : checkTargets env gs with
      | error e => exact ⟨e, rfl⟩
      | ok u =>
          obtain ⟨e2, hmap⟩ := exMapM_error (renderGrp env) gs g hgmem e1 hgrp
          rw [hmap]
          exact ⟨e2, rfl⟩
  | .times c body =>
      rw [mentionsDelay] at hm
      rw [renderNode]
      cases hrc : repCount env c with
      | error e => exact ⟨e, rfl⟩
      | ok k =>
          obtain ⟨e, he⟩ := mentions_error_nodes env nm body hm hv
          rw [he]
          exact ⟨e, rfl⟩
theorem mentions_error_nodes (env : Env) (nm : Str) (l : Nodes)
    (hm : mentionsDelayNs nm l = true)
    (hv : alookup env.values ((nm, none) : APath) = none) :
    ∃ e, renderNodes env l = .error e := by
  match l with
  | .nil => simp [mentionsDelayNs] at hm
  | .cons h t =>
      rw [mentionsDelayNs] at hm
      rw [renderNodes]
      rcases Bool.or_eq_true_iff.mp hm with h1 | h1
      · obtain ⟨e, he⟩ := mentions_error_node env nm h h1 hv
        rw [he]
        exact ⟨e, rfl⟩
      · cases hrn : renderNode env h with
        | error e => exact ⟨e, rfl⟩
        | ok s1 =>
            obtain ⟨e, he⟩ := mentions_error_nodes env nm t h1 hv
            rw [he]
            exact ⟨e, rfl⟩
end

/-- Claim C3: running the waveforms stage on a timeline that references a
declared delay whose top-level quantity is unbound fails fatally: the stage
returns an error (raises) instead of a patched Environment, and whenever the
stage does succeed it returns the Environment with its accumulated errors
list untouched -- the stage never records soft errors. -/
theorem C3_thm (env : Env) (prog : Nodes) (nm : Str)
    (hm : mentionsDelayNs nm prog = true)
    (hv : alookup env.values ((nm, none) : APath) = none) :
    (∃ e, waveformsStage env prog = .error e) ∧
    ∀ (env2 : Env) (prog2 : Nodes) (env3 : Env),
      waveformsStage env2 prog2 = .ok env3 → env3.errors = env2.errors := by
  constructor
  · obtain ⟨e, he⟩ := mentions_error_nodes env nm prog hm hv
    refine ⟨e, ?_⟩
    rw [waveformsStage, he]
  · intro env2 prog2 env3 hok
    rw [waveformsStage] at hok
    cases hr : renderNodes env2 prog2 with
    | error e =>
        rw [hr] at hok
        cases hok
    | ok s =>
        rw [hr] at hok
        simp only [Except.ok.injEq] at hok
        rw [← hok]

/-- Claim C3 witness: the theorem at the Environment declaring the delay d1
with no bound value and the timeline consisting of that bare delay (the
shape of InvalidTreeTest.testWaveforms). -/
theorem C3_w : ∃ e, waveformsStage envC3 progC3 = .error e :=
  (C3_thm envC3 progC3 dName (by decide) (by decide)).1

theorem zeroSeg_length (env : Env) (k : ℕ) :
    (zeroSeg env k).length = (outputsOf env).length := by
  unfold zeroSeg
  rw [List.length_map]

theorem acqSeg_length (env : Env) (j : ℕ) :
    (acqSeg env j).length = (outputsOf env).length := by
  unfold acqSeg
  rw [List.length_map, List.length_range]

mutual
theorem renderNode_length (env : Env) (x : Node) (s : Seg)
    (h : renderNode env x = .ok s) : s.length = (outputsOf env).length := by
  match x with
  | .decl k names =>
      rw [renderNode] at h
      injection h with h2
      rw [← h2]
      exact zeroSeg_length env 0
  | .assign p v =>
      rw [renderNode] at h
      injection h with h2
      rw [← h2]
      exact zeroSeg_length env 0
  | .delayName nm =>
      rw [renderNode] at h
      split at h
      · cases h
      · injection h with h2
        rw [← h2]
        exact zeroSeg_length env _
  | .quantN q =>
      rw [renderNode] at h
      split at h
      · injection h with h2
        rw [← h2]
        exact zeroSeg_length env _
      · cases h
  | .par gs =>
      rw [renderNode, renderPar] at h
      split at h
      · cases h
      · split at h
        · cases h
        · injection h with h2
          rw [← h2, List.length_map]
  | .acquire =>
      rw [renderNode] at h
      split at h
      · cases h
      · injection h with h2
        rw [← h2]
        exact acqSeg_length env _
  | .times c body =>
      rw [renderNode] at h
      split at h
      · cases h
      next n hn =>
        split at h
        · cases h
        next s0 hs0 =>
          injection h with h2
          rw [← h2, Seg.npow_length]
          exact renderNodes_length env body s0 hs0
theorem renderNodes_length (env : Env) (l : Nodes) (s : Seg)
    (h : renderNodes env l = .ok s) : s.length = (outputsOf env).length := by
  match l with
  | .nil =>
      rw [renderNodes] at h
      injection h with h2
      rw [← h2]
      exact zeroSeg_length env 0
  | .cons hd t =>
      rw [renderNodes] at h
      split at h
      · cases h
      next s1 h1 =>
        split at h
        · cases h
        next s2 h2 =>
          injection h with h3
          rw [← h3, Seg.comp_length, renderNode_length env hd s1 h1,
            renderNodes_length env t s2 h2]
          exact min_self _
end

theorem getD_map_acq {α : Type} (l : List α) (f : α → OutSeg)
    (hf : ∀ x, (f x).2 = []) (i : ℕ) : ((l.map f).getD i ([], [])).2 = [] := by
  induction l generalizing i with
  | nil => cases i <;> rfl
  | cons a t ih =>
      cases i with
      | zero => simpa using hf a
      | succ ii =>
          rw [List.map_cons, List.getD_cons_succ]
          exact ih ii

theorem zeroSeg_getD_acq (env : Env) (k : ℕ) (i : ℕ) :
    ((zeroSeg env k).getD i ([], [])).2 = [] :=
  getD_map_acq _ _ (fun _ => rfl) i

mutual
theorem acqFree_node (env : Env) (x : Node) (s : Seg)
    (h : renderNode env x = .ok s) (hf : acquireFree x = true) (i : ℕ) :
    (s.getD i ([], [])).2 = [] := by
  match x with
  | .decl k names =>
      rw [renderNode] at h
      injection h with h2
      rw [← h2]
      exact zeroSeg_getD_acq env 0 i
  | .assign p v =>
      rw [renderNode] at h
      injection h with h2
      rw [← h2]
      exact zeroSeg_getD_acq env 0 i
  | .delayName nm =>
      rw [renderNode] at h
      split at h
      · cases h
      · injection h with h2
        rw [← h2]
        exact zeroSeg_getD_acq env _ i
  | .quantN q =>
      rw [renderNode] at h
      split at h
      · injection h with h2
        rw [← h2]
        exact zeroSeg_getD_acq env _ i
      · cases h
  | .par gs =>
      rw [renderNode, renderPar] at h
      split at h
      · cases h
      · split at h
        · cases h
        next bs hbs =>
          injection h with h2
          rw [← h2]
          refine getD_map_acq _ _ (fun o => ?_) i
          cases hft : firstTargeting gs bs o <;> rfl
  | .acquire =>
      simp [acquireFree] at hf
  | .times c body =>
      simp only [acquireFree] at hf
      rw [renderNode] at h
      split at h
      · cases h
      next n hn =>
        split at h
        · cases h
        next s0 hs0 =>
          injection h with h2
          rw [← h2, npow_getD]
          show repAcq n ((s0.getD i ([], [])).1).length ((s0.getD i ([], [])).2) = []
          rw [acqFree_nodes env body s0 hs0 hf i]
          exact repAcq_nil n _
theorem acqFree_nodes (env : Env) (l : Nodes) (s : Seg)
    (h : renderNodes env l = .ok s) (hf : acquireFreeNs l = true) (i : ℕ) :
    (s.getD i ([], [])).2 = [] := by
  match l with
  | .nil =>
      rw [renderNodes] at h
      injection h with h2
      rw [← h2]
      exact zeroSeg_getD_acq env 0 i
  | .cons hd t =>
      simp only [acquireFreeNs, Bool.and_eq_true] at hf
      rw [renderNodes] at h
      split at h
      · cases h
      next s1 h1 =>
        split at h
        · cases h
        next s2 h2 =>
          injection h with h3
          have hL1 := renderNode_length env hd s1 h1
          have hL2 := renderNodes_length env t s2 h2
          rw [← h3, comp_getD s1 s2 (hL1.trans hL2.symm) i]
          show (s1.getD i ([], [])).2 ++
            ((s2.getD i ([], [])).2).map (· + ((s1.getD i ([], [])).1).length) = []
          rw [acqFree_node env hd s1 h1 hf.1 i, acqFree_nodes env t s2 h2 hf.2 i]
          rfl
end

theorem findIdxOpt_lt {α : Type} (p : α → Bool) (l : List α) (i j : ℕ)
    (h : List.findIdx? p l i = some j) : j < i + l.length := by
  induction l generalizing i with
  | nil => simp [List.findIdx?] at h
  | cons a t ih =>
      simp only [List.findIdx?] at h
      split at h
      · injection h with h2
        rw [List.length_cons]
        omega
      · have h3 := ih (i + 1) h
        rw [List.length_cons]
        omega

theorem acqIndex_lt (env : Env) (j : ℕ) (h : acqIndex env = .ok j) :
    j < (outputsOf env).length := by
  rw [acqIndex] at h
  split at h
  · cases h
  next o ho =>
    split at h
    · cases h
    next n hn =>
      split at h
      next j2 hfind =>
        injection h with h2
        rw [← h2]
        have h3 := findIdxOpt_lt _ _ 0 j2 hfind
        omega
      · cases h

theorem acqSeg_getD (env : Env) (j i : ℕ) (hi : i < (outputsOf env).length) :
    (acqSeg env j).getD i ([], []) = ([], if i = j then [0] else []) := by
  unfold acqSeg
  have hl : i < ((List.range (outputsOf env).length).map
      (fun i => (([] : List ℚ), if i = j then [0] else ([] : List ℕ)))).length := by
    simpa using hi
  rw [List.getD_eq_getElem _ _ hl, List.getElem_map, List.getElem_range]

theorem rangeMap_ge (a b : ℕ) :
    (List.range (a + b)).map (fun i => decide (a ≤ i)) =
      List.replicate a false ++ List.replicate b true := by
  rw [List.range_add a b, List.map_append, List.map_map]
  congr 1
  · have h1 : ∀ x ∈ List.range a, decide (a ≤ x) = (fun _ => false) x := by
      intro x hx
      rw [List.mem_range] at hx
      simp only [decide_eq_false_iff_not]
      omega
    rw [List.map_congr_left h1, List.map_const', List.length_range]
  · have h1 : ∀ x ∈ List.range b,
        ((fun i => decide (a ≤ i)) ∘ (fun x => a + x)) x = (fun _ => true) x := by
      intro x hx
      show decide (a ≤ a + x) = true
      exact decide_eq_true (Nat.le_add_right a x)
    rw [List.map_congr_left h1, List.map_const', List.length_range]

theorem mkWaveform_nil_acq (os : OutSeg) (h : os.2 = []) :
    (mkWaveform os).marker1 = List.replicate os.1.length false := by
  show (List.range os.1.length).map (fun i => os.2.any (fun cpos => decide (cpos ≤ i))) = _
  rw [h]
  simp only [List.any_nil]
  rw [List.map_const', List.length_range]

theorem mkWaveform_one_acq (w : List ℚ) (c : ℕ) :
    (mkWaveform (w, [c])).marker1 = (List.range w.length).map (fun i => decide (c ≤ i)) := by
  show (List.range w.length).map (fun i => [c].any (fun cpos => decide (cpos ≤ i))) = _
  simp only [List.any_cons, List.any_nil, Bool.or_false]

theorem comp_map_empty_left {α : Type} (l : List α) (t : Seg) (h : t.length = l.length) :
    Seg.comp (l.map (fun _ => (([] : List ℚ), ([] : List ℕ)))) t = t := by
  induction l generalizing t with
  | nil =>
      cases t with
      | nil => rfl
      | cons b t2 => simp at h
  | cons a l2 ih =>
      cases t with
      | nil => simp at h
      | cons b t2 =>
          show Seg.comp (([], []) :: l2.map _) (b :: t2) = b :: t2
          unfold Seg.comp
          rw [List.zipWith_cons_cons]
          congr 1
          · simp [OutSeg.comp]
          · exact ih t2 (by simpa using h)

theorem comp_zeroSeg_left (env : Env) (t : Seg) (h : t.length = (outputsOf env).length) :
    Seg.comp (zeroSeg env 0) t = t := by
  have h2 : zeroSeg env 0 = (outputsOf env).map (fun _ => (([] : List ℚ), ([] : List ℕ))) := rfl
  rw [h2]
  exact comp_map_empty_left _ t h

theorem renderNodes_app (env : Env) (A B : Nodes) (sa sb : Seg)
    (hA : renderNodes env A = .ok sa) (hB : renderNodes env B = .ok sb)
    (hsb : sb.length = (outputsOf env).length) :
    renderNodes env (Nodes.app A B) = .ok (Seg.comp sa sb) := by
  match A with
  | .nil =>
      rw [renderNodes] at hA
      injection hA with h2
      rw [← h2]
      show renderNodes env B = .ok (Seg.comp (zeroSeg env 0) sb)
      rw [hB, comp_zeroSeg_left env sb hsb]
  | .cons hd t =>
      rw [renderNodes] at hA
      split at hA
      · cases hA
      next s1 h1 =>
        split at hA
        · cases hA
        next st h2 =>
          injection hA with h3
          have happ := renderNodes_app env t B st sb h2 hB hsb
          show renderNodes env (.cons hd (Nodes.app t B)) = _
          rw [renderNodes, h1, happ, ← h3, Seg.comp_assoc]

theorem zipWith_wf_getD (l1 : List Str) (s : Seg) (h : s.length = l1.length) (i : ℕ) :
    (List.zipWith (fun o os => (o, mkWaveform os)) l1 s).getD i ([], mkWaveform ([], [])) =
      (l1.getD i [], mkWaveform (s.getD i ([], []))) := by
  induction l1 generalizing s i with
  | nil =>
      cases s with
      | nil => cases i <;> rfl
      | cons b t => simp at h
  | cons a t ih =>
      cases s with
      | nil => simp at h
      | cons b u =>
          cases i with
          | zero => rfl
          | succ ii =>
              simp only [List.zipWith_cons_cons, List.getD_cons_succ]
              exact ih u (by simpa using h) ii

theorem comp_acq_shape (a b : OutSeg) (ha : a.2 = []) (hb : b.2 = []) :
    OutSeg.comp a (OutSeg.comp ([], [0]) b) = (a.1 ++ b.1, [a.1.length]) := by
  obtain ⟨wa, aa⟩ := a
  obtain ⟨wb, ab⟩ := b
  dsimp only at ha hb
  subst ha
  subst hb
  simp [OutSeg.comp]

theorem comp_acq_none (a b : OutSeg) (ha : a.2 = []) (hb : b.2 = []) :
    (OutSeg.comp a (OutSeg.comp ([], []) b)).2 = [] := by
  obtain ⟨wa, aa⟩ := a
  obtain ⟨wb, ab⟩ := b
  dsimp only at ha hb
  subst ha
  subst hb
  simp [OutSeg.comp]

/-- Claim C1 (amended): for a program splitting as A, acquire, B with A and
B acquire-free and the acquisition pseudo-variable routed (num bound, output
bound to declared output index j), the waveforms stage succeeds whenever
rendering does, and on the routed output marker channel 1 is false for
exactly the samples written before the acquire (the cursor position) and
true from the cursor to the END of the waveform -- not for a single sample
as claimed -- while the cursor itself does not advance (the wave is the
concatenation of the two halves' samples); every other output's marker
channel 1 is entirely false. -/
theorem C1_amended (env : Env) (A B : Nodes) (j : ℕ) (sa sb s : Seg) (env2 : Env)
    (hacq : acqIndex env = .ok j)
    (hA : renderNodes env A = .ok sa) (hB : renderNodes env B = .ok sb)
    (hfA : acquireFreeNs A = true) (hfB : acquireFreeNs B = true)
    (hs : renderNodes env (Nodes.app A (.cons .acquire B)) = .ok s)
    (henv : waveformsStage env (Nodes.app A (.cons .acquire B)) = .ok env2) :
    (s.getD j ([], [])).1 = (sa.getD j ([], [])).1 ++ (sb.getD j ([], [])).1 ∧
    (env2.waveforms.getD j ([], mkWaveform ([], []))).2.marker1 =
      List.replicate ((sa.getD j ([], [])).1.length) false ++
        List.replicate ((sb.getD j ([], [])).1.length) true ∧
    ∀ i, i ≠ j →
      (env2.waveforms.getD i ([], mkWaveform ([], []))).2.marker1 =
        List.replicate ((s.getD i ([], [])).1.length) false := by
  have hj : j < (outputsOf env).length := acqIndex_lt env j hacq
  have hLa : sa.length = (outputsOf env).length := renderNodes_length env A sa hA
  have hLb : sb.length = (outputsOf env).length := renderNodes_length env B sb hB
  have hra : renderNode env .acquire = .ok (acqSeg env j) := by
    rw [renderNode, hacq]
  have hcons : renderNodes env (.cons .acquire B) = .ok (Seg.comp (acqSeg env j) sb) := by
    rw [renderNodes, hra, hB]
  have hLc : (Seg.comp (acqSeg env j) sb).length = (outputsOf env).length := by
    rw [Seg.comp_length, acqSeg_length, hLb]
    exact min_self _
  have happ := renderNodes_app env A (.cons .acquire B) sa _ hA hcons hLc
  have hseq : s = Seg.comp sa (Seg.comp (acqSeg env j) sb) := by
    rw [happ] at hs
    injection hs with h2
    exact h2.symm
  have hsa2 := acqFree_nodes env A sa hA hfA
  have hsb2 := acqFree_nodes env B sb hB hfB
  have hgj : s.getD j ([], []) =
      ((sa.getD j ([], [])).1 ++ (sb.getD j ([], [])).1, [(sa.getD j ([], [])).1.length]) := by
    rw [hseq]
    rw [comp_getD sa _ (by rw [hLa, hLc]) j]
    rw [comp_getD (acqSeg env j) sb (by rw [acqSeg_length, hLb]) j]
    rw [acqSeg_getD env j j hj, if_pos rfl]
    exact comp_acq_shape _ _ (hsa2 j) (hsb2 j)
  have henv2 : env2.waveforms =
      List.zipWith (fun o os => (o, mkWaveform os)) (outputsOf env) s := by
    rw [waveformsStage, hs] at henv
    injection henv with h2
    rw [← h2]
  have hLs : s.length = (outputsOf env).length := renderNodes_length env _ s hs
  have hwf : ∀ i, env2.waveforms.getD i ([], mkWaveform ([], [])) =
      ((outputsOf env).getD i [], mkWaveform (s.getD i ([], []))) := by
    intro i
    rw [henv2]
    exact zipWith_wf_getD (outputsOf env) s hLs i
  refine ⟨by rw [hgj], ?_, ?_⟩
  · rw [hwf j, hgj]
    show (mkWaveform ((sa.getD j ([], [])).1 ++ (sb.getD j ([], [])).1,
        [(sa.getD j ([], [])).1.length])).marker1 = _
    rw [mkWaveform_one_acq, List.length_append]
    exact rangeMap_ge _ _
  · intro i hij
    rw [hwf i]
    show (mkWaveform (s.getD i ([], []))).marker1 = _
    apply mkWaveform_nil_acq
    rw [hseq]
    by_cases hilt : i < (outputsOf env).length
    · rw [comp_getD sa _ (by rw [hLa, hLc]) i]
      rw [comp_getD (acqSeg env j) sb (by rw [acqSeg_length, hLb]) i]
      rw [acqSeg_getD env j i hilt, if_neg hij]
      exact comp_acq_none _ _ (hsa2 i) (hsb2 i)
    · rw [List.getD_eq_default]
      rw [Seg.comp_length, hLa, hLc]
      omega

/-- Claim C1 counterexample: with num bound to 1, the program consisting of
an acquire followed by a two-sample delay renders the routed output's marker
channel 1 as true at BOTH samples, not at exactly one: the marker stays true
from the acquire cursor to the end of the waveform. -/
theorem C1_cx :
    waveformsStage envC1 progC1 = .ok envCX ∧
    (envCX.waveforms.getD 0 ([], mkWaveform ([], []))).2.marker1 = [true, true] ∧
    [true, true].count true ≠ 1 := by
  have hsam : samples envC1 qTwo = 2 := by
    have h1 : round ((2 : ℚ) / 1) = 2 := by norm_num
    show (round ((2 : ℚ) / 1)).toNat = 2
    rw [h1]
    rfl
  have hq : renderNode envC1 (.quantN qTwo) = .ok (zeroSeg envC1 2) := by
    rw [renderNode, if_pos (show qTwo.dimension = Dimension.time from rfl), hsam]
  have hacq : renderNode envC1 .acquire = .ok (acqSeg envC1 0) := by
    rw [renderNode, show acqIndex envC1 = .ok 0 from by decide]
  have hs : renderNodes envC1 progC1 = .ok segCX := by
    show renderNodes envC1 (.cons .acquire (.cons (.quantN qTwo) .nil)) = _
    rw [renderNodes, hacq, renderNodes, hq, renderNodes]
    rfl
  refine ⟨by rw [waveformsStage, hs]; rfl, ?_, by decide⟩
  rfl

/-- Claim C1 witness: the amended theorem applied at the one-output routed
Environment with an empty prefix and the two-sample body as suffix: the
routed output's marker channel 1 is false on zero samples and true on the
two samples written after the acquire. -/
theorem C1_w :
    acqIndex envC1 = .ok 0 ∧ acquireFreeNs bodyC7 = true ∧
    (envCX.waveforms.getD 0 ([], mkWaveform ([], []))).2.marker1 =
      List.replicate (((zeroSeg envC1 0).getD 0 ([], [])).1.length) false ++
        List.replicate ((segC7.getD 0 ([], [])).1.length) true := by
  have hsam : samples envC1 qTwo = 2 := by
    have h1 : round ((2 : ℚ) / 1) = 2 := by norm_num
    show (round ((2 : ℚ) / 1)).toNat = 2
    rw [h1]
    rfl
  have hq : renderNode envC1 (.quantN qTwo) = .ok (zeroSeg envC1 2) := by
    rw [renderNode, if_pos (show qTwo.dimension = Dimension.time from rfl), hsam]
  have hB : renderNodes envC1 bodyC7 = .ok segC7 := by
    show renderNodes envC1 (.cons (.quantN qTwo) .nil) = _
    rw [renderNodes, hq, renderNodes]
    rfl
  have hacqn : renderNode envC1 .acquire = .ok (acqSeg envC1 0) := by
    rw [renderNode, show acqIndex envC1 = .ok 0 from by decide]
  have hs : renderNodes envC1 (Nodes.app .nil (.cons .acquire bodyC7)) = .ok segCX := by
    show renderNodes envC1 (.cons .acquire bodyC7) = _
    rw [renderNodes, hacqn, hB]
    rfl
  have henv : waveformsStage envC1 (Nodes.app .nil (.cons .acquire bodyC7)) = .ok envCX := by
    show waveformsStage envC1 (.cons .acquire bodyC7) = _
    rw [waveformsStage]
    rw [show renderNodes envC1 (.cons .acquire bodyC7) = .ok segCX from hs]
    rfl
  have hA : renderNodes envC1 Nodes.nil = .ok (zeroSeg envC1 0) := rfl
  have hmain := C1_amended envC1 Nodes.nil bodyC7 0 (zeroSeg envC1 0) segC7 segCX envCX
    (by decide) hA hB (by decide) (by decide) hs henv
  exact ⟨by decide, by decide, hmain.2.1⟩

